import Mathlib

set_option maxHeartbeats 1000000

/-! Shallow embedding of the markdown export pipeline of
    `src-tauri/src/converter.rs` together with the export dispatcher command
    of `src-tauri/src/main.rs`.  Rust strings are modelled as lists of
    characters (`Str`); byte vectors (`Vec<u8>`) are modelled the same way.
    The external shiva markdown parser / HTML generator and the chromium PDF
    renderer are library boundaries and appear as function parameters. -/

abbrev Str := List Char

/-- Rust `char::is_whitespace` (the Unicode White_Space property). -/
def isRustWhitespace (c : Char) : Bool :=
  let n := c.toNat
  (decide (9 <= n) && decide (n <= 13)) || n == 32 || n == 133 || n == 160 ||
  n == 5760 || (decide (8192 <= n) && decide (n <= 8202)) || n == 8232 ||
  n == 8233 || n == 8239 || n == 8287 || n == 12288

/-- Rust `str::trim`. -/
def rustTrim (s : Str) : Str :=
  ((s.dropWhile isRustWhitespace).reverse.dropWhile isRustWhitespace).reverse

/-- Split a character list at every `'\n'`; the newlines themselves are
    dropped.  Always returns one more piece than the input has newlines. -/
def splitNl : Str → List Str
  | [] => [[]]
  | c :: rest =>
    if c = '\n' then [] :: splitNl rest
    else
      match splitNl rest with
      | [] => [[c]]
      | l :: ls => (c :: l) :: ls

/-- Drop one trailing carriage return (the `'\r'` of a CRLF line ending). -/
def stripCR (s : Str) : Str := if s.getLast? = some '\r' then s.dropLast else s

/-- Rust `str::lines`: split at `'\n'`, dropping the final empty piece (the
    optional trailing newline) and one `'\r'` directly before each `'\n'`. -/
def rustLines (s : Str) : List Str :=
  let parts := splitNl s
  parts.dropLast.map stripCR ++ if parts.getLast? = some [] then [] else [parts.getLastD []]

/-- The decimal digit characters. -/
def digitChar (d : Nat) : Char := ("0123456789".toList).getD d '0'

def natDigitsGo : Nat → Nat → Str
  | n, 0 => [digitChar n]
  | n, fuel + 1 =>
    if n < 10 then [digitChar n]
    else natDigitsGo (n / 10) fuel ++ [digitChar (n % 10)]

/-- Decimal representation of a `usize`, as produced by Rust `format!("{}", n)`
    (written with a — always sufficient — fuel argument, so that it reduces
    structurally). -/
def natDigits (n : Nat) : Str := natDigitsGo n n

/-- Decimal representation of an `i64`, as produced by Rust `format!("{}", i)`. -/
def intRepr (i : Int) : Str :=
  if i < 0 then '-' :: natDigits i.natAbs else natDigits i.natAbs

/-- Rust `str::replace`: replace every leftmost-first, non-overlapping
    occurrence of `pat` by `rep`; replacement text is not rescanned.  (The
    program only ever calls this with nonempty `pat`; for empty `pat` this
    model returns `s` unchanged.) -/
def rustReplace (s pat rep : Str) : Str :=
  match s with
  | [] => []
  | c :: rest =>
    if h : pat ≠ [] ∧ pat.isPrefixOf (c :: rest) then
      rep ++ rustReplace ((c :: rest).drop pat.length) pat rep
    else
      c :: rustReplace rest pat rep
termination_by s.length
decreasing_by
  · simp only [List.length_drop, List.length_cons]
    have hp : 0 < pat.length := List.length_pos.mpr h.1
    omega
  · simp only [List.length_cons]
    omega

/-- `const MERMAID_PLACEHOLDER` of converter.rs. -/
def MERMAID_PLACEHOLDER : Str := "MERMAID_DIAGRAM_PLACEHOLDER_".toList

def fenceOpenTok : Str := "```mermaid".toList

def fenceCloseTok : Str := "```".toList

/-- The loop state of `extract_mermaid_blocks`. -/
structure MState where
  result : Str
  mermaid_blocks : List Str
  in_mermaid : Bool
  mermaid_content : Str

/-- One iteration of the `for line in content.lines()` loop of
    `extract_mermaid_blocks`. -/
def embStep (st : MState) (line : Str) : MState :=
  if rustTrim line = fenceOpenTok then
    { st with in_mermaid := true, mermaid_content := [] }
  else if st.in_mermaid = true ∧ rustTrim line = fenceCloseTok then
    { st with
      in_mermaid := false,
      result := st.result ++ MERMAID_PLACEHOLDER ++
        natDigits st.mermaid_blocks.length ++ ['\n'],
      mermaid_blocks := st.mermaid_blocks ++ [st.mermaid_content] }
  else if st.in_mermaid = true then
    { st with mermaid_content := st.mermaid_content ++ line ++ ['\n'] }
  else
    { st with result := st.result ++ line ++ ['\n'] }

def initState : MState := ⟨[], [], false, []⟩

/-- `fn extract_mermaid_blocks` of converter.rs. -/
def extract_mermaid_blocks (content : Str) : Str × List Str :=
  let st := (rustLines content).foldl embStep initState
  (st.result, st.mermaid_blocks)

def extractTitleGo : List Str → Str
  | [] => "Document".toList
  | l :: ls =>
    if ("# ".toList).isPrefixOf (rustTrim l) then rustTrim ((rustTrim l).drop 2)
    else extractTitleGo ls

/-- `fn extract_title` of converter.rs. -/
def extract_title (content : Str) : Str := extractTitleGo (rustLines content)

inductive ExportFormat where
  | Html
  | Pdf
deriving DecidableEq

/-- Rust `str::to_lowercase`, modelled on the ASCII case mapping (the only
    characters whose lowercase forms can spell the format tokens). -/
def rustToLower (s : Str) : Str :=
  s.map fun c => if 'A' ≤ c ∧ c ≤ 'Z' then Char.ofNat (c.toNat + 32) else c

/-- `ExportFormat::from_str` of converter.rs. -/
def ExportFormat.from_str (s : Str) : Except Str ExportFormat :=
  if rustToLower s = "html".toList then .ok .Html
  else if rustToLower s = "pdf".toList then .ok .Pdf
  else .error ("Unsupported format: ".toList ++ s ++ ". Supported: html, pdf".toList)

def titleMarker : Str := "\x7b\x7bTITLE\x7d\x7d".toList

def contentMarker : Str := "\x7b\x7bCONTENT\x7d\x7d".toList

/-- The diagram container fragment
    `format!("<div class=\"mermaid\">\n{}\n</div>", code.trim())`. -/
def mermaidDiv (code : Str) : Str :=
  "<div class=\"mermaid\">\n".toList ++ rustTrim code ++ "\n</div>".toList

/-- The placeholder-substitution loop of `convert_markdown`
    (`for (i, mermaid_code) in mermaid_blocks.iter().enumerate()`). -/
def substLoop (blocks : List Str) (html : Str) : Str :=
  blocks.enum.foldl
    (fun h p => rustReplace h (MERMAID_PLACEHOLDER ++ natDigits p.1) (mermaidDiv p.2)) html

/-- The part of `HTML_TEMPLATE` before `\x7b\x7bTITLE\x7d\x7d`. -/
def tmplHead : Str := ("<!DOCTYPE html>\n<html lang=\"en\">\n<head>\n    <meta charset=\"UTF-8\">\n    <meta name=\"viewport\" content=\"width=device-width, initial-scale=1.0\">\n    <title>").toList

def tmplMid1 : Str := ("</title>\n    <style>\n        :root \x7b\n            --bg-color: #ffffff;\n            --text-color: #24292e;\n            --code-bg: #f6f8fa;\n            --border-color: #e1e4e8;\n            --link-color: #0366d6;\n            --heading-color: #24292e;\n        \x7d\n        \n        * \x7b\n            box-sizing: border-box;\n        \x7d\n        \n        body \x7b\n  ").toList

def tmplMid2 : Str := ("          font-family: -apple-system, BlinkMacSystemFont, \x27Segoe UI\x27, Helvetica, Arial, sans-serif;\n            font-size: 16px;\n            line-height: 1.6;\n            color: var(--text-color);\n            background-color: var(--bg-color);\n            max-width: 900px;\n            margin: 0 auto;\n            padding: 40px 20px;\n        \x7d\n      ").toList

def tmplMid3 : Str := ("  \n        h1, h2, h3, h4, h5, h6 \x7b\n            color: var(--heading-color);\n            margin-top: 24px;\n            margin-bottom: 16px;\n            font-weight: 600;\n            line-height: 1.25;\n            border-bottom: 1px solid var(--border-color);\n            padding-bottom: 0.3em;\n        \x7d\n        \n        h1 \x7b font-size: 2em; \x7d\n      ").toList

def tmplMid4 : Str := ("  h2 \x7b font-size: 1.5em; \x7d\n        h3 \x7b font-size: 1.25em; border-bottom: none; \x7d\n        h4, h5, h6 \x7b border-bottom: none; \x7d\n        \n        p \x7b\n            margin-top: 0;\n            margin-bottom: 16px;\n        \x7d\n        \n        a \x7b\n            color: var(--link-color);\n            text-decoration: none;\n        \x7d\n        \n        a:hover \x7b\n  ").toList

def tmplMid5 : Str := ("          text-decoration: underline;\n        \x7d\n        \n        code \x7b\n            font-family: \x27SFMono-Regular\x27, Consolas, \x27Liberation Mono\x27, Menlo, monospace;\n            font-size: 85%;\n            background-color: var(--code-bg);\n            padding: 0.2em 0.4em;\n            border-radius: 6px;\n        \x7d\n        \n        pre \x7b\n            fon").toList

def tmplMid6 : Str := ("t-family: \x27SFMono-Regular\x27, Consolas, \x27Liberation Mono\x27, Menlo, monospace;\n            font-size: 85%;\n            background-color: var(--code-bg);\n            padding: 16px;\n            overflow: auto;\n            border-radius: 6px;\n            line-height: 1.45;\n        \x7d\n        \n        pre code \x7b\n            background-color: transparent;\n  ").toList

def tmplMid7 : Str := ("          padding: 0;\n            border-radius: 0;\n        \x7d\n        \n        blockquote \x7b\n            margin: 0 0 16px 0;\n            padding: 0 1em;\n            color: #6a737d;\n            border-left: 4px solid var(--border-color);\n        \x7d\n        \n        ul, ol \x7b\n            margin-top: 0;\n            margin-bottom: 16px;\n            paddin").toList

def tmplMid8 : Str := ("g-left: 2em;\n        \x7d\n        \n        li + li \x7b\n            margin-top: 0.25em;\n        \x7d\n        \n        table \x7b\n            border-collapse: collapse;\n            width: 100%;\n            margin-bottom: 16px;\n        \x7d\n        \n        table th, table td \x7b\n            padding: 8px 13px;\n            border: 1px solid var(--border-color);\n      ").toList

def tmplMid9 : Str := ("  \x7d\n        \n        table th \x7b\n            background-color: var(--code-bg);\n            font-weight: 600;\n        \x7d\n        \n        table tr:nth-child(even) \x7b\n            background-color: #f6f8fa;\n        \x7d\n        \n        hr \x7b\n            border: 0;\n            height: 1px;\n            background-color: var(--border-color);\n            margin").toList

def tmplMid10 : Str := (": 24px 0;\n        \x7d\n        \n        img \x7b\n            max-width: 100%;\n            height: auto;\n        \x7d\n        \n        /* Task list styling */\n        input[type=\"checkbox\"] \x7b\n            margin-right: 0.5em;\n        \x7d\n        \n        /* Mermaid diagram styling */\n        .mermaid \x7b\n            text-align: center;\n            margin: 16px 0;").toList

def tmplMid11 : Str := ("\n            background-color: var(--code-bg);\n            padding: 16px;\n            border-radius: 6px;\n        \x7d\n        \n        @media print \x7b\n            body \x7b\n                max-width: none;\n                padding: 20px;\n            \x7d\n        \x7d\n        \n        @media (prefers-color-scheme: dark) \x7b\n            :root \x7b\n                --bg").toList

def tmplMid12 : Str := ("-color: #0d1117;\n                --text-color: #c9d1d9;\n                --code-bg: #161b22;\n                --border-color: #30363d;\n                --link-color: #58a6ff;\n                --heading-color: #c9d1d9;\n            \x7d\n            \n            table tr:nth-child(even) \x7b\n                background-color: #161b22;\n            \x7d\n        \x7d\n   ").toList

def tmplMid13 : Str := (" </style>\n    <!-- Mermaid.js for diagram rendering -->\n    <script src=\"https://cdn.jsdelivr.net/npm/mermaid@10/dist/mermaid.min.js\"></script>\n    <script>\n        document.addEventListener(\x27DOMContentLoaded\x27, function() \x7b\n            // Detect dark mode\n            const isDark = window.matchMedia && window.matchMedia(\x27(prefers-color-scheme: dark").toList

def tmplMid14 : Str := (")\x27).matches;\n            mermaid.initialize(\x7b\n                startOnLoad: true,\n                theme: isDark ? \x27dark\x27 : \x27default\x27,\n                securityLevel: \x27loose\x27\n            \x7d);\n        \x7d);\n    </script>\n</head>\n<body>\n").toList

/-- The chunks of the template between the two markers, in order. -/
def tmplMidChunks : List Str := [tmplMid1, tmplMid2, tmplMid3, tmplMid4, tmplMid5, tmplMid6, tmplMid7, tmplMid8, tmplMid9, tmplMid10, tmplMid11, tmplMid12, tmplMid13, tmplMid14]

/-- The part of `HTML_TEMPLATE` between `\x7b\x7bTITLE\x7d\x7d` and `\x7b\x7bCONTENT\x7d\x7d`. -/
def tmplMid : Str := tmplMidChunks.flatten

/-- The part of `HTML_TEMPLATE` after `\x7b\x7bCONTENT\x7d\x7d`. -/
def tmplTail : Str := ("\n</body>\n</html>").toList

/-- `const HTML_TEMPLATE` of converter.rs: the original raw string literal,
    written as the concatenation, in source order, of its text before the
    `\x7b\x7bTITLE\x7d\x7d` marker, the marker, the text up to the
    `\x7b\x7bCONTENT\x7d\x7d` marker (in chunks), that marker, and the final text
    (braces and apostrophes appear as `\x..` escapes). -/
def HTML_TEMPLATE : Str :=
  tmplHead ++ titleMarker ++ tmplMid ++ contentMarker ++ tmplTail

/-- `fn convert_markdown` of converter.rs.  The shiva markdown parser and
    HTML generator are external libraries, passed in as `parse`/`generate`
    over an opaque document-model type `Doc`. -/
def convert_markdown (Doc : Type) (parse : Str → Except Str Doc)
    (generate : Doc → Except Str Str) (content : Str) (format : ExportFormat) :
    Except Str Str :=
  let pr := extract_mermaid_blocks content
  match parse pr.1 with
  | .error e => .error ("Failed to parse markdown: ".toList ++ e)
  | .ok document =>
    match format with
    | .Html =>
      match generate document with
      | .error e => .error ("Failed to generate HTML: ".toList ++ e)
      | .ok raw_html =>
        let title := extract_title content
        let html_content := substLoop pr.2 raw_html
        .ok (rustReplace (rustReplace HTML_TEMPLATE titleMarker title)
              contentMarker html_content)
    | .Pdf => .error ("PDF format should be handled via convert_html_to_pdf".toList)

/-- A `documents` row of database.rs (only the fields the dispatcher reads). -/
structure DbDocument where
  id : Int
  collection_id : Int
  name : Str
  content : Str

/-- `#[tauri::command] async fn export_document` of main.rs.  The database is
    a lookup function, the chromium renderer (`convert_html_to_pdf`) is the
    `renderer` parameter, and filesystem writes are recorded as an output list
    of (path, bytes) pairs instead of performed. -/
def export_document (Doc : Type) (parse : Str → Except Str Doc)
    (generate : Doc → Except Str Str) (renderer : Str → Except Str Str)
    (db : Int → Option DbDocument) (document_id : Int)
    (format : Str) (output_path : Str) :
    Except Str Unit × List (Str × Str) :=
  match db document_id with
  | none => (.error ("Document ".toList ++ intRepr document_id ++ " not found".toList), [])
  | some document =>
    match ExportFormat.from_str format with
    | .error e => (.error e, [])
    | .ok export_format =>
      match export_format with
      | .Html =>
        match convert_markdown Doc parse generate document.content .Html with
        | .error e => (.error e, [])
        | .ok output_bytes => (.ok (), [(output_path, output_bytes)])
      | .Pdf =>
        match convert_markdown Doc parse generate document.content .Html with
        | .error e => (.error e, [])
        | .ok html_bytes =>
          match renderer html_bytes with
          | .error e => (.error e, [])
          | .ok pdf_bytes => (.ok (), [(output_path, pdf_bytes)])

/-! ### Occurrence decomposition machinery

A pattern occurrence in a string is a decomposition `s = l ++ pat ++ r`
(exactly `List.IsInfix`).  `occ_split` locates an occurrence relative to an
append, keeping the surrounding context. -/

theorem occ_split {A B l r pat : Str} (h : A ++ B = l ++ (pat ++ r)) :
    (∃ r₂, A = l ++ pat ++ r₂ ∧ r = r₂ ++ B) ∨
    (∃ l₂, l = A ++ l₂ ∧ B = l₂ ++ pat ++ r) ∨
    (∃ p₁ p₂, pat = p₁ ++ p₂ ∧ p₁ ≠ [] ∧ p₂ ≠ [] ∧ A = l ++ p₁ ∧ B = p₂ ++ r) := by
  rcases List.append_eq_append_iff.1 h with ⟨a', h1, h2⟩ | ⟨c', h1, h2⟩
  · refine Or.inr (Or.inl ⟨a', h1, ?_⟩)
    rw [h2, List.append_assoc]
  · rcases List.append_eq_append_iff.1 h2 with ⟨x, h3, h4⟩ | ⟨y, h3, h4⟩
    · refine Or.inl ⟨x, ?_, h4⟩
      rw [h1, h3, List.append_assoc]
    · by_cases hce : c' = []
      · subst hce
        simp only [List.append_nil] at h1
        simp only [List.nil_append] at h3
        refine Or.inr (Or.inl ⟨[], by simp [h1], ?_⟩)
        simp only [List.nil_append]
        rw [h4, h3]
      · by_cases hye : y = []
        · subst hye
          simp only [List.append_nil] at h3
          refine Or.inl ⟨[], ?_, ?_⟩
          · rw [h1, h3, List.append_nil]
          · simp only [List.nil_append]
            simpa using h4.symm
        · exact Or.inr (Or.inr ⟨c', y, h3, hce, hye, h1, h4⟩)

theorem infix_parts {pat s : Str} (h : pat <:+: s) : ∃ l r, s = l ++ (pat ++ r) := by
  rcases h with ⟨l, r, hlr⟩
  exact ⟨l, r, by rw [← hlr, List.append_assoc]⟩

theorem infix_of_parts {pat : Str} (l r : Str) : pat <:+: (l ++ (pat ++ r)) :=
  ⟨l, r, by rw [List.append_assoc]⟩

/-- No occurrence crosses from `A` into `B` when the last character of `A`
    is not a character of the pattern. -/
theorem noOcc_append_left {pat A B : Str} (hA : ¬ pat <:+: A) (hB : ¬ pat <:+: B)
    (hlast : ∀ x, A.getLast? = some x → x ∉ pat) : ¬ pat <:+: (A ++ B) := by
  intro h
  rcases infix_parts h with ⟨l, r, hlr⟩
  rcases occ_split hlr with ⟨r₂, h1, _⟩ | ⟨l₂, _, h2⟩ | ⟨p₁, p₂, hp, hp1, _, hA2, _⟩
  · exact hA ⟨l, r₂, by rw [h1]⟩
  · exact hB ⟨l₂, r, by rw [h2, List.append_assoc]⟩
  · have hmem : p₁.getLast hp1 ∈ pat := by
      rw [hp]
      exact List.mem_append.2 (Or.inl (List.getLast_mem hp1))
    refine hlast (p₁.getLast hp1) ?_ hmem
    rw [hA2, List.getLast?_append, List.getLast?_eq_getLast _ hp1]
    simp

/-- No occurrence crosses from `A` into `B` when the head character of `B`
    is not a character of the pattern. -/
theorem noOcc_append_right {pat A B : Str} (hA : ¬ pat <:+: A) (hB : ¬ pat <:+: B)
    (hhead : ∀ x, B.head? = some x → x ∉ pat) : ¬ pat <:+: (A ++ B) := by
  intro h
  rcases infix_parts h with ⟨l, r, hlr⟩
  rcases occ_split hlr with ⟨r₂, h1, _⟩ | ⟨l₂, _, h2⟩ | ⟨p₁, p₂, hp, _, hp2, _, hB2⟩
  · exact hA ⟨l, r₂, by rw [h1]⟩
  · exact hB ⟨l₂, r, by rw [h2, List.append_assoc]⟩
  · have hmem : p₂.head hp2 ∈ pat := by
      rw [hp]
      exact List.mem_append.2 (Or.inr (List.head_mem hp2))
    refine hhead (p₂.head hp2) ?_ hmem
    rw [hB2, List.head?_append, List.head?_eq_head hp2]
    simp

theorem infix_append_left_of {pat a : Str} (b : Str) (h : pat <:+: a) :
    pat <:+: (a ++ b) :=
  h.trans ⟨[], b, by simp⟩

theorem infix_append_right_of {pat b : Str} (a : Str) (h : pat <:+: b) :
    pat <:+: (a ++ b) :=
  h.trans ⟨a, [], by simp⟩

theorem suffix_of_suffix_length_le {l₁ l₂ l₃ : Str} (h1 : l₁ <:+ l₃) (h2 : l₂ <:+ l₃)
    (hl : l₁.length ≤ l₂.length) : l₁ <:+ l₂ := by
  rw [← List.reverse_prefix] at h1 h2 ⊢
  exact List.prefix_of_prefix_length_le h1 h2 (by simpa using hl)

/-- Appending after `a` cannot create an occurrence when `a` already carries a
    pattern-free suffix `last` long enough to cover any straddling occurrence. -/
theorem noOcc_append_of_suffix {pat a b last : Str} (ha : ¬ pat <:+: a)
    (hsuf : last <:+ a) (hlen : pat.length ≤ last.length + 1)
    (hcross : ¬ pat <:+: (last ++ b)) : ¬ pat <:+: (a ++ b) := by
  intro h
  rcases infix_parts h with ⟨l, r, hlr⟩
  rcases occ_split hlr with ⟨r₂, h1, _⟩ | ⟨l₂, _, h2⟩ | ⟨p₁, p₂, hp, hp1, hp2, hA, hB⟩
  · exact ha ⟨l, r₂, h1.symm⟩
  · exact hcross (infix_append_right_of last ⟨l₂, r, by rw [h2, List.append_assoc]⟩)
  · have hp₁a : p₁ <:+ a := ⟨l, hA.symm⟩
    have hp₁len : p₁.length ≤ last.length := by
      have : p₁.length + p₂.length = pat.length := by
        rw [hp, List.length_append]
      have hpos : 0 < p₂.length := List.length_pos.2 hp2
      omega
    obtain ⟨l₃, hl₃⟩ := suffix_of_suffix_length_le hp₁a hsuf hp₁len
    refine hcross ⟨l₃, r, ?_⟩
    rw [← hl₃, hp, hB]
    simp [List.append_assoc]

theorem noOcc_flatten_aux {pat : Str} : ∀ (cs : List Str) (a last : Str),
    ¬ pat <:+: a → last <:+ a → pat.length ≤ last.length + 1 →
    (∀ c ∈ cs, ¬ pat <:+: c ∧ pat.length ≤ c.length + 1) →
    List.Chain' (fun x y => ¬ pat <:+: (x ++ y)) (last :: cs) →
    ¬ pat <:+: (a ++ cs.flatten)
  | [], _a, _last, ha, _, _, _, _ => by simpa using ha
  | c :: cs', a, last, ha, hsuf, hlen, hall, hchain => by
    have hcross : ¬ pat <:+: (last ++ c) := (List.chain'_cons.1 hchain).1
    have ha' : ¬ pat <:+: (a ++ c) := noOcc_append_of_suffix ha hsuf hlen hcross
    have hrec := noOcc_flatten_aux cs' (a ++ c) c ha' (List.suffix_append a c)
      (hall c (by simp)).2 (fun x hx => hall x (by simp [hx])) (List.chain'_cons.1 hchain).2
    simpa [List.append_assoc] using hrec

/-- A pattern-free concatenation: every chunk is pattern-free, no occurrence
    straddles an adjacent pair, and chunks are long enough that an occurrence
    cannot span three of them. -/
theorem noOcc_flatten {pat c : Str} {cs : List Str}
    (hc : ¬ pat <:+: c) (hlenc : pat.length ≤ c.length + 1)
    (hall : ∀ x ∈ cs, ¬ pat <:+: x ∧ pat.length ≤ x.length + 1)
    (hchain : List.Chain' (fun x y => ¬ pat <:+: (x ++ y)) (c :: cs)) :
    ¬ pat <:+: (c :: cs).flatten := by
  have hrec := noOcc_flatten_aux cs c c hc List.suffix_rfl hlenc hall hchain
  simpa using hrec

/-! ### Properties of `rustReplace` -/

theorem rustReplace_nil (pat rep : Str) : rustReplace [] pat rep = [] := by
  rw [rustReplace]

theorem rustReplace_pos {c : Char} {rest pat : Str} (rep : Str) (hne : pat ≠ [])
    (hp : pat <+: (c :: rest)) :
    rustReplace (c :: rest) pat rep =
      rep ++ rustReplace ((c :: rest).drop pat.length) pat rep := by
  rw [rustReplace]
  rw [dif_pos ⟨hne, List.isPrefixOf_iff_prefix.2 hp⟩]

theorem rustReplace_neg {c : Char} {rest pat : Str} (rep : Str)
    (h : ¬ pat <+: (c :: rest)) :
    rustReplace (c :: rest) pat rep = c :: rustReplace rest pat rep := by
  rw [rustReplace]
  rw [dif_neg]
  intro hcon
  exact h (List.isPrefixOf_iff_prefix.1 hcon.2)

theorem rustReplace_of_no_occ {s pat : Str} (rep : Str) (h : ¬ pat <:+: s) :
    rustReplace s pat rep = s := by
  induction s with
  | nil => exact rustReplace_nil pat rep
  | cons c rest ih =>
    rw [rustReplace_neg rep (fun hp => h hp.isInfix)]
    rw [ih (fun hi => h (List.infix_cons hi))]

theorem rustReplace_exact {a pat b : Str} (rep : Str) (hne : pat ≠ [])
    (h : ¬ pat <:+: (a ++ pat.dropLast)) :
    rustReplace (a ++ pat ++ b) pat rep = a ++ rep ++ rustReplace b pat rep := by
  induction a with
  | nil =>
    rcases pat with _ | ⟨p, pt⟩
    · exact absurd rfl hne
    · simp only [List.nil_append]
      rw [List.cons_append]
      rw [rustReplace_pos rep hne (by rw [← List.cons_append]; exact List.prefix_append _ b)]
      rw [← List.cons_append, List.drop_left]
  | cons c a' ih =>
    have h' : ¬ pat <:+: (a' ++ pat.dropLast) := by
      intro hi
      exact h (List.infix_cons hi)
    have hnp : ¬ pat <+: c :: (a' ++ pat ++ b) := by
      intro hp
      have hy : (c :: a') ++ pat.dropLast <+: c :: (a' ++ pat ++ b) := by
        refine ⟨[pat.getLast hne] ++ b, ?_⟩
        simp only [List.cons_append, List.append_assoc, List.cons.injEq, true_and]
        rw [show List.getLast pat hne :: ([] ++ b) = [List.getLast pat hne] ++ b from by simp]
        rw [← List.append_assoc (List.dropLast pat), List.dropLast_append_getLast hne]
      have hlen : pat.length ≤ ((c :: a') ++ pat.dropLast).length := by
        simp only [List.length_append, List.length_cons, List.length_dropLast]
        have hpos : 0 < pat.length := List.length_pos.2 hne
        omega
      exact h (List.prefix_of_prefix_length_le hp hy hlen).isInfix
    calc rustReplace ((c :: a') ++ pat ++ b) pat rep
        = rustReplace (c :: (a' ++ pat ++ b)) pat rep := by simp
      _ = c :: rustReplace (a' ++ pat ++ b) pat rep := rustReplace_neg rep hnp
      _ = c :: (a' ++ rep ++ rustReplace b pat rep) := by rw [ih h']
      _ = (c :: a') ++ rep ++ rustReplace b pat rep := by simp

/-! ### Pattern-freeness of the template pieces -/

set_option maxRecDepth 8000

/-- Boolean check that no occurrence of `pat` straddles an adjacent pair of
    chunks. -/
def chainFree (pat : Str) : List Str → Bool
  | x :: y :: rest => !(decide (pat <:+: (x ++ y))) && chainFree pat (y :: rest)
  | _ => true

theorem chainFree_chain' {pat : Str} : ∀ {cs : List Str}, chainFree pat cs = true →
    List.Chain' (fun x y => ¬ pat <:+: (x ++ y)) cs
  | [], _ => List.chain'_nil
  | [x], _ => List.chain'_singleton x
  | _ :: y :: rest, h => by
    rw [List.chain'_cons]
    simp only [chainFree, Bool.and_eq_true, Bool.not_eq_true', decide_eq_false_iff_not] at h
    exact ⟨h.1, chainFree_chain' h.2⟩

/-- Chunk-wise certificate for pattern-freeness of a concatenation. -/
theorem noOcc_flatten_bool {pat : Str} {c : Str} {cs : List Str}
    (hb : ((c :: cs).all fun x =>
      !(decide (pat <:+: x)) && decide (pat.length ≤ x.length + 1)) = true)
    (hchain : chainFree pat (c :: cs) = true) :
    ¬ pat <:+: (c :: cs).flatten := by
  have hall := List.all_eq_true.1 hb
  simp only [Bool.and_eq_true, Bool.not_eq_true', decide_eq_false_iff_not,
    decide_eq_true_eq] at hall
  refine noOcc_flatten (hall c (by simp)).1 (hall c (by simp)).2
    (fun x hx => hall x (by simp [hx])) (chainFree_chain' hchain)

theorem noOcc_tmplMid_P : ¬ MERMAID_PLACEHOLDER <:+: tmplMid := by
  show ¬ MERMAID_PLACEHOLDER <:+: tmplMidChunks.flatten
  rw [tmplMidChunks]
  exact noOcc_flatten_bool (by rfl) (by rfl)

theorem noOcc_tmplMid_title : ¬ titleMarker <:+: tmplMid := by
  show ¬ titleMarker <:+: tmplMidChunks.flatten
  rw [tmplMidChunks]
  exact noOcc_flatten_bool (by rfl) (by rfl)

theorem noOcc_tmplMid_content : ¬ contentMarker <:+: tmplMid := by
  show ¬ contentMarker <:+: tmplMidChunks.flatten
  rw [tmplMidChunks]
  exact noOcc_flatten_bool (by rfl) (by rfl)

theorem tmplMid_eq_flatten : tmplMid = tmplMidChunks.flatten := rfl

theorem tmplMid_head : tmplMid.head? = some '<' := by
  rw [tmplMid_eq_flatten, tmplMidChunks]
  simp only [List.flatten_cons, List.head?_append]
  rfl

theorem tmplMid_last : tmplMid.getLast? = some '\n' := by
  rw [tmplMid_eq_flatten, tmplMidChunks]
  simp only [List.flatten_cons, List.flatten_nil, List.getLast?_append, List.append_nil]
  rfl

theorem tmplMid_ne_nil : tmplMid ≠ [] := by
  intro h
  have := congrArg List.head? h
  rw [tmplMid_head] at this
  simp at this

/-- The text after the title marker contains no occurrence of the title
    marker. -/
theorem noOcc_afterTitle_title :
    ¬ titleMarker <:+: (tmplMid ++ (contentMarker ++ tmplTail)) := by
  have h : ¬ titleMarker <:+: (tmplMidChunks ++ [contentMarker, tmplTail]).flatten := by
    rw [tmplMidChunks]
    simp only [List.cons_append, List.nil_append]
    exact noOcc_flatten_bool (by rfl) (by rfl)
  rw [List.flatten_append] at h
  simpa [tmplMid_eq_flatten] using h

/-- First substitution of `convert_markdown`'s template step:
    `HTML_TEMPLATE.replace("{{TITLE}}", &title)`. -/
theorem template_replace_title (title : Str) :
    rustReplace HTML_TEMPLATE titleMarker title =
      tmplHead ++ (title ++ (tmplMid ++ (contentMarker ++ tmplTail))) := by
  have hstep : rustReplace (tmplHead ++ titleMarker ++ (tmplMid ++ (contentMarker ++ tmplTail)))
      titleMarker title =
      tmplHead ++ title ++ rustReplace (tmplMid ++ (contentMarker ++ tmplTail)) titleMarker title :=
    rustReplace_exact title (by decide) (by decide)
  rw [rustReplace_of_no_occ title noOcc_afterTitle_title] at hstep
  have hshape : HTML_TEMPLATE =
      tmplHead ++ titleMarker ++ (tmplMid ++ (contentMarker ++ tmplTail)) := by
    rw [HTML_TEMPLATE]
    simp [List.append_assoc]
  rw [hshape, hstep]
  simp [List.append_assoc]

theorem tmplHead_last : tmplHead.getLast? = some '>' := rfl

/-- Second substitution of `convert_markdown`'s template step:
    `.replace("{{CONTENT}}", &html_content)`, assuming the title text does not
    itself contain the content marker. -/
theorem template_replace_both (title body : Str) (hT : ¬ contentMarker <:+: title) :
    rustReplace (rustReplace HTML_TEMPLATE titleMarker title) contentMarker body =
      tmplHead ++ (title ++ (tmplMid ++ (body ++ tmplTail))) := by
  rw [template_replace_title]
  have hX1 : ¬ contentMarker <:+: (tmplHead ++ title) := by
    refine noOcc_append_left (by decide) hT ?_
    intro x hx
    rw [tmplHead_last] at hx
    cases Option.some.inj hx
    decide
  have hX2 : ¬ contentMarker <:+: ((tmplHead ++ title) ++ tmplMid) := by
    refine noOcc_append_right hX1 noOcc_tmplMid_content ?_
    intro x hx
    rw [tmplMid_head] at hx
    cases Option.some.inj hx
    decide
  have hX2last : ((tmplHead ++ title) ++ tmplMid).getLast? = some '\n' := by
    rw [List.getLast?_append, tmplMid_last]
    rfl
  have hA : ¬ contentMarker <:+:
      (((tmplHead ++ title) ++ tmplMid) ++ contentMarker.dropLast) := by
    refine noOcc_append_left hX2 (by decide) ?_
    intro x hx
    rw [hX2last] at hx
    cases Option.some.inj hx
    decide
  have hstep :=
    @rustReplace_exact ((tmplHead ++ title) ++ tmplMid) contentMarker tmplTail body
      (by decide) hA
  rw [rustReplace_of_no_occ body (by decide : ¬ contentMarker <:+: tmplTail)] at hstep
  have hshape : tmplHead ++ (title ++ (tmplMid ++ (contentMarker ++ tmplTail))) =
      ((tmplHead ++ title) ++ tmplMid) ++ contentMarker ++ tmplTail := by
    simp [List.append_assoc]
  rw [hshape, hstep]
  simp [List.append_assoc]

/-! ### Line-splitting lemmas -/

theorem splitNl_ne_nil : ∀ s : Str, splitNl s ≠ []
  | [] => by simp [splitNl]
  | c :: rest => by
    by_cases hc : c = '\n'
    · subst hc
      simp [splitNl]
    · simp only [splitNl, if_neg hc]
      rcases hm : splitNl rest with _ | ⟨l, ls⟩ <;> simp

theorem splitNl_cons_nl (t : Str) : splitNl ('\n' :: t) = [] :: splitNl t := by
  simp [splitNl]

theorem splitNl_cons {c : Char} {t l : Str} {ls : List Str} (hc : c ≠ '\n')
    (h : splitNl t = l :: ls) : splitNl (c :: t) = (c :: l) :: ls := by
  simp [splitNl, hc, h]

theorem splitNl_head_pre : ∀ {s l : Str} {ls : List Str},
    splitNl s = l :: ls → l <+: s
  | [], l, ls, h => by
    simp [splitNl] at h
    simp [h.1]
  | c :: t, l, ls, h => by
    by_cases hc : c = '\n'
    · subst hc
      rw [splitNl_cons_nl] at h
      cases h
      simp
    · rcases hm : splitNl t with _ | ⟨l₀, ls₀⟩
      · exact absurd hm (splitNl_ne_nil t)
      · rw [splitNl_cons hc hm] at h
        cases h
        exact (List.prefix_cons_inj c).2 (splitNl_head_pre hm)

theorem splitNl_sub : ∀ {s : Str}, ∀ p ∈ splitNl s, p <:+: s
  | [], p, hp => by
    simp [splitNl] at hp
    simp [hp]
  | c :: t, p, hp => by
    by_cases hc : c = '\n'
    · subst hc
      rw [splitNl_cons_nl] at hp
      rcases hp with _ | ⟨_, hp⟩
      · exact ⟨[], '\n' :: t, rfl⟩
      · exact List.infix_cons (splitNl_sub p (by assumption))
    · rcases hm : splitNl t with _ | ⟨l₀, ls₀⟩
      · exact absurd hm (splitNl_ne_nil t)
      · rw [splitNl_cons hc hm] at hp
        rcases hp with _ | ⟨_, hp⟩
        · exact ((List.prefix_cons_inj c).2 (splitNl_head_pre hm)).isInfix
        · exact List.infix_cons (splitNl_sub p (by rw [hm]; exact List.mem_cons_of_mem _ (by assumption)))

theorem splitNl_no_nl : ∀ {s : Str}, ∀ p ∈ splitNl s, '\n' ∉ p
  | [], p, hp => by
    simp [splitNl] at hp
    simp [hp]
  | c :: t, p, hp => by
    by_cases hc : c = '\n'
    · subst hc
      rw [splitNl_cons_nl] at hp
      rcases hp with _ | ⟨_, hp⟩
      · simp
      · exact splitNl_no_nl p (by assumption)
    · rcases hm : splitNl t with _ | ⟨l₀, ls₀⟩
      · exact absurd hm (splitNl_ne_nil t)
      · rw [splitNl_cons hc hm] at hp
        rcases hp with _ | ⟨_, hp⟩
        · intro hmem
          rcases List.mem_cons.1 hmem with h1 | h1
          · exact hc h1.symm
          · exact splitNl_no_nl l₀ (by rw [hm]; exact List.mem_cons_self _ _) h1
        · exact splitNl_no_nl p (by rw [hm]; exact List.mem_cons_of_mem _ (by assumption))

theorem stripCR_pre (l : Str) : stripCR l <+: l := by
  rw [stripCR]
  by_cases h : l.getLast? = some '\r'
  · rw [if_pos h]
    exact List.dropLast_prefix l
  · rw [if_neg h]

theorem mem_rustLines_cases {s l : Str} (h : l ∈ rustLines s) :
    ∃ p ∈ splitNl s, l <+: p := by
  rw [rustLines] at h
  rcases List.mem_append.1 h with h1 | h1
  · rcases List.mem_map.1 h1 with ⟨p, hp, hl⟩
    exact ⟨p, List.mem_of_mem_dropLast hp, hl ▸ stripCR_pre p⟩
  · by_cases hlast : (splitNl s).getLast? = some []
    · rw [if_pos hlast] at h1
      simp at h1
    · rw [if_neg hlast] at h1
      rcases List.mem_singleton.1 h1 with rfl
      refine ⟨(splitNl s).getLastD [], ?_, List.prefix_rfl⟩
      rw [List.getLastD_eq_getLast?, List.getLast?_eq_getLast _ (splitNl_ne_nil s)]
      exact List.getLast_mem _

theorem rustLines_sub {s l : Str} (h : l ∈ rustLines s) : l <:+: s := by
  rcases mem_rustLines_cases h with ⟨p, hp, hl⟩
  exact hl.isInfix.trans (splitNl_sub p hp)

theorem rustLines_no_nl {s l : Str} (h : l ∈ rustLines s) : '\n' ∉ l := by
  rcases mem_rustLines_cases h with ⟨p, hp, hl⟩
  intro hmem
  exact splitNl_no_nl p hp (hl.sublist.mem hmem)

/-! ### Decimal representation lemmas -/

theorem natDigitsGo_fuel : ∀ (f : Nat) {n f' : Nat}, n ≤ f → n ≤ f' →
    natDigitsGo n f = natDigitsGo n f'
  | 0, n, f', hf, hf' => by
    have hn : n = 0 := by omega
    subst hn
    rcases f' with _ | f'
    · rfl
    · rw [natDigitsGo, natDigitsGo, if_pos (by omega)]
  | f + 1, n, f', hf, hf' => by
    rcases f' with _ | f'
    · have hn : n = 0 := by omega
      subst hn
      rw [natDigitsGo, natDigitsGo, if_pos (by omega)]
    · rw [natDigitsGo, natDigitsGo]
      by_cases h : n < 10
      · rw [if_pos h, if_pos h]
      · rw [if_neg h, if_neg h]
        have hd := Nat.div_lt_self (show 0 < n by omega) (show 1 < 10 by omega)
        rw [natDigitsGo_fuel f (show n / 10 ≤ f by omega) (show n / 10 ≤ f' by omega)]

theorem natDigits_lt (n : Nat) (h : n < 10) : natDigits n = [digitChar n] := by
  rw [natDigits]
  rcases n with _ | m
  · rfl
  · rw [natDigitsGo, if_pos h]

theorem natDigits_ge (n : Nat) (h : ¬ n < 10) :
    natDigits n = natDigits (n / 10) ++ [digitChar (n % 10)] := by
  rw [natDigits, natDigits]
  rcases hn : n with _ | m
  · omega
  · rw [natDigitsGo, if_neg (by omega)]
    have hd := Nat.div_lt_self (show 0 < m + 1 by omega) (show 1 < 10 by omega)
    rw [natDigitsGo_fuel m (show (m + 1) / 10 ≤ m by omega) le_rfl]

theorem natDigits_ne_nil (n : Nat) : natDigits n ≠ [] := by
  by_cases h : n < 10
  · rw [natDigits_lt n h]
    simp
  · rw [natDigits_ge n h]
    simp

theorem digitChar_isDigit {d : Nat} (h : d < 10) : (digitChar d).isDigit = true := by
  interval_cases d <;> decide

theorem digitChar_toNat {d : Nat} (h : d < 10) : (digitChar d).toNat = 48 + d := by
  interval_cases d <;> decide

theorem natDigits_all_digit : ∀ (n : Nat), ∀ c ∈ natDigits n, c.isDigit = true := by
  intro n
  induction n using Nat.strong_induction_on with
  | _ n ih =>
    intro c hc
    by_cases h : n < 10
    · rw [natDigits_lt n h] at hc
      rcases List.mem_singleton.1 hc with rfl
      exact digitChar_isDigit h
    · rw [natDigits_ge n h] at hc
      rcases List.mem_append.1 hc with h1 | h1
      · exact ih (n / 10) (Nat.div_lt_self (by omega) (by omega)) c h1
      · rcases List.mem_singleton.1 h1 with rfl
        exact digitChar_isDigit (Nat.mod_lt n (by omega))

def digitsVal (l : Str) : Nat := l.foldl (fun a c => a * 10 + (c.toNat - 48)) 0

theorem digitsVal_natDigits : ∀ n : Nat, digitsVal (natDigits n) = n := by
  intro n
  induction n using Nat.strong_induction_on with
  | _ n ih =>
    by_cases h : n < 10
    · rw [natDigits_lt n h]
      simp [digitsVal, digitChar_toNat h]
    · rw [natDigits_ge n h, digitsVal, List.foldl_append]
      have hrec := ih (n / 10) (Nat.div_lt_self (by omega) (by omega))
      rw [digitsVal] at hrec
      rw [hrec]
      simp only [List.foldl_cons, List.foldl_nil]
      rw [digitChar_toNat (Nat.mod_lt n (by omega))]
      omega

theorem natDigits_inj {m n : Nat} (h : natDigits m = natDigits n) : m = n := by
  have := congrArg digitsVal h
  rwa [digitsVal_natDigits, digitsVal_natDigits] at this

theorem placeholder_no_digit : ∀ c ∈ MERMAID_PLACEHOLDER, c.isDigit = false := by decide

theorem nl_not_mem_placeholder : '\n' ∉ MERMAID_PLACEHOLDER := by decide

/-! ### Prefix splitting along digit runs -/

theorem prefix_append_cases {d e r : Str} (h : d <+: (e ++ r)) :
    d <+: e ∨ (e <+: d ∧ d.drop e.length <+: r) := by
  by_cases hl : d.length ≤ e.length
  · exact Or.inl (List.prefix_of_prefix_length_le h (List.prefix_append e r) hl)
  · have he : e <+: d := List.prefix_of_prefix_length_le (List.prefix_append e r) h (by omega)
    refine Or.inr ⟨he, ?_⟩
    have := h.drop e.length
    rwa [List.drop_left] at this

/-- A run of digits extending a prefix past an all-digit block must stop at a
    non-digit character. -/
theorem digit_prefix_cut {d e : Str} {c : Char} {r : Str}
    (hd : ∀ x ∈ d, x.isDigit = true) (hc : c.isDigit = false)
    (h : d <+: (e ++ (c :: r))) : d <+: e := by
  rcases prefix_append_cases h with h1 | ⟨h1, h2⟩
  · exact h1
  · rcases hdrop : d.drop e.length with _ | ⟨x, xs⟩
    · have : d.length ≤ e.length := by
        have := congrArg List.length hdrop
        simp only [List.length_drop, List.length_nil] at this
        omega
      exact List.prefix_of_prefix_length_le h (List.prefix_append e _) this
    · rw [hdrop] at h2
      have hx : x = c := by
        rcases h2 with ⟨t, ht⟩
        have := congrArg List.head? ht
        simpa using this
      have hxd : x ∈ d := by
        have : x ∈ d.drop e.length := by
          rw [hdrop]
          exact List.mem_cons_self _ _
        exact List.mem_of_mem_drop this
      rw [hx] at hxd
      rw [hd c hxd] at hc
      exact absurd hc (by simp)

/-! ### Title resolution (claim C5) -/

theorem extractTitleGo_no_match : ∀ {ls : List Str},
    (∀ l ∈ ls, ¬ ("# ".toList <+: rustTrim l)) → extractTitleGo ls = "Document".toList
  | [], _ => rfl
  | l :: ls, h => by
    rw [extractTitleGo]
    rw [if_neg (fun hb => h l (List.mem_cons_self _ _) (List.isPrefixOf_iff_prefix.1 hb))]
    exact extractTitleGo_no_match (fun x hx => h x (List.mem_cons_of_mem _ hx))

theorem extractTitleGo_first : ∀ {pre : List Str} {l : Str} {post : List Str},
    (∀ l' ∈ pre, ¬ ("# ".toList <+: rustTrim l')) → ("# ".toList <+: rustTrim l) →
    extractTitleGo (pre ++ l :: post) = rustTrim ((rustTrim l).drop 2)
  | [], l, post, _, hl => by
    rw [List.nil_append, extractTitleGo, if_pos (List.isPrefixOf_iff_prefix.2 hl)]
  | p :: pre, l, post, hpre, hl => by
    rw [List.cons_append, extractTitleGo]
    rw [if_neg (fun hb => hpre p (List.mem_cons_self _ _) (List.isPrefixOf_iff_prefix.1 hb))]
    exact extractTitleGo_first (fun x hx => hpre x (List.mem_cons_of_mem _ hx)) hl

/-- C5: `extract_title` returns the trimmed text after the `"# "` of the first
    line whose trimmed form starts with `"# "`; with no such line it returns
    `"Document"`; a line whose trimmed form starts with `"## "` never matches
    (so level-2 headings are skipped, and only the first level-1 heading is
    used). -/
theorem extract_title_spec (content : Str) :
    ((∀ l ∈ rustLines content, ¬ ("# ".toList <+: rustTrim l)) →
      extract_title content = "Document".toList) ∧
    (∀ pre l post, rustLines content = pre ++ l :: post →
      (∀ l' ∈ pre, ¬ ("# ".toList <+: rustTrim l')) →
      ("# ".toList <+: rustTrim l) →
      extract_title content = rustTrim ((rustTrim l).drop 2)) ∧
    (∀ l : Str, "## ".toList <+: rustTrim l → ¬ ("# ".toList <+: rustTrim l)) := by
  refine ⟨?_, ?_, ?_⟩
  · intro h
    exact extractTitleGo_no_match h
  · intro pre l post hdec hpre hl
    rw [extract_title, hdec]
    exact extractTitleGo_first hpre hl
  · intro l h2 h1
    have := List.prefix_of_prefix_length_le h1 h2 (by decide)
    revert this
    decide

theorem extract_title_spec_witness :
    extract_title ("hey\n## no\n#  My Title  \n# Later".toList) = "My Title".toList ∧
    extract_title ("plain\n### x".toList) = "Document".toList := by
  constructor
  · have h := (extract_title_spec ("hey\n## no\n#  My Title  \n# Later".toList)).2.1
      ["hey".toList, "## no".toList] ("#  My Title  ".toList) ["# Later".toList]
      (by decide) (by decide) (by decide)
    rw [h]
    decide
  · have h := (extract_title_spec ("plain\n### x".toList)).1 (by decide)
    rw [h]

/-! ### Export format parsing (claim C6) -/

/-- C6: `ExportFormat::from_str` is case-insensitive — a string lowercasing to
    `"html"` parses to `Html`, one lowercasing to `"pdf"` parses to `Pdf`, and
    anything else fails with the error message naming the supported set. -/
theorem from_str_spec (s : Str) :
    (rustToLower s = "html".toList → ExportFormat.from_str s = .ok .Html) ∧
    (rustToLower s = "pdf".toList → ExportFormat.from_str s = .ok .Pdf) ∧
    (rustToLower s ≠ "html".toList → rustToLower s ≠ "pdf".toList →
      ExportFormat.from_str s =
        .error ("Unsupported format: ".toList ++ s ++ ". Supported: html, pdf".toList)) := by
  refine ⟨?_, ?_, ?_⟩
  · intro h
    rw [ExportFormat.from_str, if_pos h]
  · intro h
    rw [ExportFormat.from_str, if_neg (by rw [h]; decide), if_pos h]
  · intro h1 h2
    rw [ExportFormat.from_str, if_neg h1, if_neg h2]

theorem from_str_spec_witness :
    ExportFormat.from_str ("HtMl".toList) = .ok .Html ∧
    ExportFormat.from_str ("PDF".toList) = .ok .Pdf ∧
    ExportFormat.from_str ("docx".toList) =
      .error ("Unsupported format: docx. Supported: html, pdf".toList) :=
  ⟨(from_str_spec ("HtMl".toList)).1 (by decide),
   (from_str_spec ("PDF".toList)).2.1 (by decide),
   (from_str_spec ("docx".toList)).2.2 (by decide) (by decide)⟩

/-! ### Step lemmas for the extraction loop -/

theorem fence_tokens_ne : fenceCloseTok ≠ fenceOpenTok := by decide

theorem embStep_open {st : MState} {line : Str} (h : rustTrim line = fenceOpenTok) :
    embStep st line = { st with in_mermaid := true, mermaid_content := [] } := by
  rw [embStep, if_pos h]

theorem embStep_close {st : MState} {line : Str} (hm : st.in_mermaid = true)
    (h : rustTrim line = fenceCloseTok) :
    embStep st line =
      { st with
        in_mermaid := false,
        result := st.result ++ MERMAID_PLACEHOLDER ++
          natDigits st.mermaid_blocks.length ++ ['\n'],
        mermaid_blocks := st.mermaid_blocks ++ [st.mermaid_content] } := by
  rw [embStep, if_neg (by rw [h]; exact fence_tokens_ne), if_pos ⟨hm, h⟩]

theorem embStep_buffer {st : MState} {line : Str} (hm : st.in_mermaid = true)
    (ho : rustTrim line ≠ fenceOpenTok) (hc : rustTrim line ≠ fenceCloseTok) :
    embStep st line = { st with mermaid_content := st.mermaid_content ++ line ++ ['\n'] } := by
  rw [embStep, if_neg ho, if_neg (fun hcon => hc hcon.2), if_pos hm]

theorem embStep_copy {st : MState} {line : Str} (hm : st.in_mermaid = false)
    (ho : rustTrim line ≠ fenceOpenTok) :
    embStep st line = { st with result := st.result ++ line ++ ['\n'] } := by
  rw [embStep, if_neg ho, if_neg (fun hcon => by rw [hm] at hcon; exact absurd hcon.1 (by simp)),
    if_neg (by rw [hm]; simp)]

/-- While capture mode is active, lines that are not a closing fence never
    touch the produced output or the recorded diagrams. -/
theorem fold_capture_preserves : ∀ (ls : List Str) (st : MState),
    st.in_mermaid = true → (∀ l ∈ ls, rustTrim l ≠ fenceCloseTok) →
    (ls.foldl embStep st).result = st.result ∧
    (ls.foldl embStep st).mermaid_blocks = st.mermaid_blocks ∧
    (ls.foldl embStep st).in_mermaid = true
  | [], st, hm, _ => ⟨rfl, rfl, hm⟩
  | l :: ls, st, hm, h => by
    rw [List.foldl_cons]
    by_cases ho : rustTrim l = fenceOpenTok
    · rw [embStep_open ho]
      exact fold_capture_preserves ls { st with in_mermaid := true, mermaid_content := [] }
        rfl (fun x hx => h x (List.mem_cons_of_mem _ hx))
    · rw [embStep_buffer hm ho (h l (List.mem_cons_self _ _))]
      exact fold_capture_preserves ls
        { st with mermaid_content := st.mermaid_content ++ l ++ ['\n'] }
        hm (fun x hx => h x (List.mem_cons_of_mem _ hx))

/-- C4: an unterminated diagram fence is dropped silently: the extraction of
    `pre ++ opener :: tail` (where `tail` contains no closing fence, so
    capture mode is still active at end of input) returns exactly the
    processed markdown and diagram list of `pre` alone — the unterminated
    block's lines reach neither output, and no placeholder is emitted. -/
theorem unterminated_fence_dropped (content : Str) (pre : List Str) (opener : Str)
    (tail : List Str) (hdec : rustLines content = pre ++ opener :: tail)
    (hop : rustTrim opener = fenceOpenTok)
    (htail : ∀ l ∈ tail, rustTrim l ≠ fenceCloseTok) :
    extract_mermaid_blocks content =
      ((pre.foldl embStep initState).result, (pre.foldl embStep initState).mermaid_blocks) := by
  rw [extract_mermaid_blocks, hdec]
  rw [List.foldl_append, List.foldl_cons]
  rw [embStep_open hop]
  have h := fold_capture_preserves tail
    { pre.foldl embStep initState with in_mermaid := true, mermaid_content := [] } rfl htail
  rw [h.1, h.2.1]

theorem unterminated_fence_dropped_witness :
    extract_mermaid_blocks ("# T\n```mermaid\nlost content".toList) =
      ("# T\n".toList, []) := by
  have h := unterminated_fence_dropped ("# T\n```mermaid\nlost content".toList)
    ["# T".toList] ("```mermaid".toList) ["lost content".toList]
    (by decide) (by decide) (by decide)
  rw [h]
  decide

/-- The buffer accumulated over the body lines of a fence. -/
def joinNl (ls : List Str) : Str := (ls.map (fun l => l ++ ['\n'])).flatten

theorem fold_body_buffers : ∀ (body : List Str) (st : MState),
    st.in_mermaid = true →
    (∀ l ∈ body, rustTrim l ≠ fenceOpenTok ∧ rustTrim l ≠ fenceCloseTok) →
    body.foldl embStep st = { st with mermaid_content := st.mermaid_content ++ joinNl body }
  | [], st, _, _ => by simp [joinNl]
  | l :: body, st, hm, h => by
    rw [List.foldl_cons, embStep_buffer hm (h l (List.mem_cons_self _ _)).1
      (h l (List.mem_cons_self _ _)).2]
    rw [fold_body_buffers body
      { st with mermaid_content := st.mermaid_content ++ l ++ ['\n'] }
      hm (fun x hx => h x (List.mem_cons_of_mem _ hx))]
    simp [joinNl, List.append_assoc]

/-- C9: an opening fence line seen while capture is already active restarts
    the capture: whatever had been buffered (`st.mermaid_content`) is
    discarded, and only the lines after this second opener up to the next
    closing fence become the recorded diagram. -/
theorem fence_restart_discards_buffer (st : MState) (opener closer : Str)
    (body rest : List Str) (hm : st.in_mermaid = true)
    (hop : rustTrim opener = fenceOpenTok)
    (hbody : ∀ l ∈ body, rustTrim l ≠ fenceOpenTok ∧ rustTrim l ≠ fenceCloseTok)
    (hcl : rustTrim closer = fenceCloseTok) :
    (opener :: (body ++ closer :: rest)).foldl embStep st =
      rest.foldl embStep
        { result := st.result ++ MERMAID_PLACEHOLDER ++
            natDigits st.mermaid_blocks.length ++ ['\n'],
          mermaid_blocks := st.mermaid_blocks ++ [joinNl body],
          in_mermaid := false,
          mermaid_content := joinNl body } := by
  rw [List.foldl_cons, embStep_open hop, List.foldl_append]
  rw [fold_body_buffers body { st with in_mermaid := true, mermaid_content := [] } rfl hbody]
  rw [List.foldl_cons,
    @embStep_close { st with in_mermaid := true, mermaid_content := [] ++ joinNl body }
      closer rfl hcl]
  rfl

theorem fence_restart_discards_buffer_witness :
    (["```mermaid".toList, "kept".toList, "```".toList]).foldl embStep
        ⟨"r".toList, [], true, "DISCARDED\n".toList⟩ =
      ⟨"r".toList ++ MERMAID_PLACEHOLDER ++ natDigits 0 ++ ['\n'],
        ["kept\n".toList], false, "kept\n".toList⟩ := by
  have h := fence_restart_discards_buffer ⟨"r".toList, [], true, "DISCARDED\n".toList⟩
    ("```mermaid".toList) ("```".toList) ["kept".toList] []
    rfl (by decide) (by decide) (by decide)
  simpa [joinNl] using h

/-! ### Dispatcher claims (C7, C8) -/

/-- C7: with an unrecognized format token, `export_document` fails before any
    markdown parsing or rendering — the outcome is an error, identical for
    any parser/generator/renderer whatsoever — and the write list is empty:
    the filesystem destination is untouched. -/
theorem export_unsupported_no_write (Doc Doc' : Type)
    (parse : Str → Except Str Doc) (generate : Doc → Except Str Str)
    (parse' : Str → Except Str Doc') (generate' : Doc' → Except Str Str)
    (renderer renderer' : Str → Except Str Str)
    (db : Int → Option DbDocument) (document_id : Int) (format output_path : Str)
    (e : Str) (hfmt : ExportFormat.from_str format = .error e) :
    (export_document Doc parse generate renderer db document_id format output_path).2 = [] ∧
    (∃ err, (export_document Doc parse generate renderer db document_id format
      output_path).1 = .error err) ∧
    export_document Doc parse generate renderer db document_id format output_path =
      export_document Doc' parse' generate' renderer' db document_id format output_path := by
  cases hdb : db document_id with
  | none => simp [export_document, hdb]
  | some document => simp [export_document, hdb, hfmt]

theorem export_unsupported_no_write_witness :
    (export_document Unit (fun _ => .ok ()) (fun _ => .ok []) (fun _ => .ok [])
      (fun _ => some ⟨1, 1, "doc".toList, "# x".toList⟩) 1 ("xml".toList)
      ("out.html".toList)).2 = [] ∧
    (∃ err, (export_document Unit (fun _ => .ok ()) (fun _ => .ok []) (fun _ => .ok [])
      (fun _ => some ⟨1, 1, "doc".toList, "# x".toList⟩) 1 ("xml".toList)
      ("out.html".toList)).1 = .error err) := by
  have h := export_unsupported_no_write Unit Bool (fun _ => .ok ()) (fun _ => .ok [])
    (fun _ => .ok true) (fun _ => .ok []) (fun _ => .ok []) (fun _ => .ok [])
    (fun _ => some ⟨1, 1, "doc".toList, "# x".toList⟩) 1 ("xml".toList) ("out.html".toList)
    ("Unsupported format: xml. Supported: html, pdf".toList) (by rfl)
  exact ⟨h.1, h.2.1⟩

/-- Unfolding of the HTML arm of `convert_markdown` when the external parser
    and generator succeed. -/
theorem convert_markdown_html_eq (Doc : Type) (parse : Str → Except Str Doc)
    (generate : Doc → Except Str Str) (content : Str) (doc : Doc) (raw : Str)
    (hp : parse (extract_mermaid_blocks content).1 = .ok doc)
    (hg : generate doc = .ok raw) :
    convert_markdown Doc parse generate content .Html =
      .ok (rustReplace (rustReplace HTML_TEMPLATE titleMarker (extract_title content))
            contentMarker (substLoop (extract_mermaid_blocks content).2 raw)) := by
  simp [convert_markdown, hp, hg]

/-- The fully composed HTML arm, with the template substitutions expanded. -/
theorem convert_markdown_html_composed (Doc : Type) (parse : Str → Except Str Doc)
    (generate : Doc → Except Str Str) (content : Str) (doc : Doc) (raw : Str)
    (hp : parse (extract_mermaid_blocks content).1 = .ok doc)
    (hg : generate doc = .ok raw)
    (hT : ¬ contentMarker <:+: extract_title content) :
    convert_markdown Doc parse generate content .Html =
      .ok (tmplHead ++ (extract_title content ++ (tmplMid ++
        (substLoop (extract_mermaid_blocks content).2 raw ++ tmplTail)))) := by
  rw [convert_markdown_html_eq Doc parse generate content doc raw hp hg]
  rw [template_replace_both _ _ hT]

/-- C8: `convert_markdown` called with the `Pdf` variant returns an error for
    every markdown input and every parser/generator — it never produces
    output bytes — and the dispatcher reaches PDF output only by converting
    to HTML first and feeding that result through the renderer. -/
theorem convert_pdf_unreachable (Doc : Type) (parse : Str → Except Str Doc)
    (generate : Doc → Except Str Str) :
    (∀ content, ∃ e, convert_markdown Doc parse generate content .Pdf = .error e) ∧
    (∀ (renderer : Str → Except Str Str) (db : Int → Option DbDocument)
        (document_id : Int) (format output_path : Str) (document : DbDocument)
        (html pdf : Str),
      db document_id = some document →
      ExportFormat.from_str format = .ok .Pdf →
      convert_markdown Doc parse generate document.content .Html = .ok html →
      renderer html = .ok pdf →
      export_document Doc parse generate renderer db document_id format output_path =
        (.ok (), [(output_path, pdf)])) := by
  constructor
  · intro content
    cases hp : parse (extract_mermaid_blocks content).1 with
    | error e =>
      exact ⟨"Failed to parse markdown: ".toList ++ e, by simp [convert_markdown, hp]⟩
    | ok doc =>
      exact ⟨"PDF format should be handled via convert_html_to_pdf".toList,
        by simp [convert_markdown, hp]⟩
  · intro renderer db document_id format output_path document html pdf hdb hfmt hconv hrend
    simp [export_document, hdb, hfmt, hconv, hrend]

theorem convert_pdf_unreachable_witness :
    (∃ e, convert_markdown Str (fun s => .ok s) (fun s => .ok s) ("x".toList) .Pdf =
      .error e) ∧
    export_document Str (fun s => .ok s) (fun _ => .ok []) (fun _ => .ok ("PDF".toList))
        (fun _ => some ⟨1, 1, "doc".toList, []⟩) 1 ("pdf".toList) ("o.pdf".toList) =
      (.ok (), [("o.pdf".toList, "PDF".toList)]) := by
  constructor
  · exact (convert_pdf_unreachable Str (fun s => .ok s) (fun s => .ok s)).1 ("x".toList)
  · refine (convert_pdf_unreachable Str (fun s => .ok s) (fun _ => .ok [])).2
      (fun _ => .ok ("PDF".toList)) (fun _ => some ⟨1, 1, "doc".toList, []⟩) 1
      ("pdf".toList) ("o.pdf".toList) ⟨1, 1, "doc".toList, []⟩
      (tmplHead ++ ("Document".toList ++ (tmplMid ++ ([] ++ tmplTail)))) ("PDF".toList)
      rfl (by rfl) ?_ rfl
    exact convert_markdown_html_composed Str (fun s => .ok s) (fun _ => .ok []) [] []
      [] rfl rfl (by decide)

/-! ### Cons-shaped recursion equations for `rustLines` -/

theorem splitNl_head_nl {t : Str} {l₁ : Str} {ls₁ : List Str}
    (h : splitNl t = [] :: l₁ :: ls₁) : t.head? = some '\n' := by
  rcases t with _ | ⟨c, r⟩
  · simp [splitNl] at h
  · by_cases hc : c = '\n'
    · simp [hc]
    · rcases hm : splitNl r with _ | ⟨l₀, ls₀⟩
      · exact absurd hm (splitNl_ne_nil r)
      · rw [splitNl_cons hc hm] at h
        simp at h

theorem stripCR_cons {c : Char} {l : Str} (h : l ≠ [] ∨ c ≠ '\r') :
    stripCR (c :: l) = c :: stripCR l := by
  rcases l with _ | ⟨x, xs⟩
  · rcases h with h | h
    · exact absurd rfl h
    · rw [stripCR, stripCR]
      simp [h]
  · rw [stripCR, stripCR]
    have hlast : (c :: x :: xs).getLast? = (x :: xs).getLast? := by
      simp [List.getLast?_cons_cons]
    rw [hlast]
    by_cases hr : (x :: xs).getLast? = some '\r'
    · rw [if_pos hr, if_pos hr]
      rfl
    · rw [if_neg hr, if_neg hr]

theorem rustLines_nil : rustLines [] = [] := rfl

theorem rustLines_cons_nl (t : Str) : rustLines ('\n' :: t) = [] :: rustLines t := by
  rcases hm : splitNl t with _ | ⟨l₀, ls₀⟩
  · exact absurd hm (splitNl_ne_nil t)
  · rw [rustLines, rustLines, splitNl_cons_nl, hm]
    rcases ls₀ with _ | ⟨l₁, ls₁⟩ <;>
      simp [List.getLast?_cons_cons, stripCR]

theorem rustLines_cons_crlf (t : Str) : rustLines ('\r' :: '\n' :: t) = [] :: rustLines t := by
  rcases hm : splitNl t with _ | ⟨l₀, ls₀⟩
  · exact absurd hm (splitNl_ne_nil t)
  · have hsplit : splitNl ('\r' :: '\n' :: t) = ['\r'] :: l₀ :: ls₀ := by
      rw [splitNl_cons (by decide) (by rw [splitNl_cons_nl, hm])]
    rw [rustLines, rustLines, hsplit, hm]
    have hstrip : stripCR ['\r'] = [] := by decide
    rcases ls₀ with _ | ⟨l₁, ls₁⟩ <;>
      simp [List.getLast?_cons_cons, hstrip]

theorem rustLines_cons {c : Char} {t : Str} (hc : c ≠ '\n')
    (hcr : c = '\r' → t.head? ≠ some '\n') :
    rustLines (c :: t) =
      (match rustLines t with
        | [] => [[c]]
        | l :: ls => (c :: l) :: ls) := by
  rcases hm : splitNl t with _ | ⟨l₀, ls₀⟩
  · exact absurd hm (splitNl_ne_nil t)
  · have hsplit : splitNl (c :: t) = (c :: l₀) :: ls₀ := splitNl_cons hc hm
    rcases ls₀ with _ | ⟨l₁, ls₁⟩
    · rw [rustLines, rustLines, hsplit, hm]
      rcases hl₀ : l₀ with _ | ⟨x, xs⟩ <;> simp
    · have hstrip : stripCR (c :: l₀) = c :: stripCR l₀ := by
        refine stripCR_cons ?_
        rcases hl₀ : l₀ with _ | ⟨x, xs⟩
        · refine Or.inr ?_
          intro hr
          subst hl₀
          exact hcr hr (splitNl_head_nl hm)
        · exact Or.inl (by simp)
      rw [rustLines, rustLines, hsplit, hm]
      simp only [List.getLast?_cons_cons, List.dropLast_cons₂, List.map_cons, hstrip]
      rcases hrt : stripCR l₀ :: ((l₁ :: ls₁).dropLast.map stripCR ++
        if (l₁ :: ls₁).getLast? = some [] then []
        else [(l₁ :: ls₁).getLastD []]) with _ | _
      · simp at hrt
      · simp

/-! ### Line-ending normalization (claims C3, C10) -/

/-- Modelled from the spec: normalization of CRLF line endings to LF, used to
    phrase what "unchanged modulo line-ending normalization" means. -/
def crlfToLf : Str → Str
  | [] => []
  | c :: rest =>
    if c = '\r' ∧ rest.head? = some '\n' then '\n' :: crlfToLf rest.tail
    else c :: crlfToLf rest
termination_by s => s.length
decreasing_by
  · simp only [List.length_tail, List.length_cons]
    omega
  · simp only [List.length_cons]
    omega

/-- Modelled from the spec: trailing-newline normalization — append a final
    newline to a nonempty string that lacks one. -/
def ensureNl (s : Str) : Str :=
  if s = [] then [] else if s.getLast? = some '\n' then s else s ++ ['\n']

/-- Every carriage return is immediately followed by a line feed (i.e. all
    carriage returns are parts of CRLF line endings). -/
def crProper : Str → Bool
  | [] => true
  | c :: rest => (if c = '\r' then decide (rest.head? = some '\n') else true) && crProper rest

theorem crlfToLf_nil : crlfToLf [] = [] := by rw [crlfToLf]

theorem crlfToLf_crlf (r : Str) : crlfToLf ('\r' :: '\n' :: r) = '\n' :: crlfToLf r := by
  rw [crlfToLf, if_pos ⟨rfl, rfl⟩]
  rfl

theorem crlfToLf_cons {c : Char} {t : Str} (h : ¬ (c = '\r' ∧ t.head? = some '\n')) :
    crlfToLf (c :: t) = c :: crlfToLf t := by
  rw [crlfToLf, if_neg h]

theorem crlfToLf_eq_nil_iff {s : Str} : crlfToLf s = [] ↔ s = [] := by
  constructor
  · intro h
    rcases s with _ | ⟨c, t⟩
    · rfl
    · by_cases hcr : c = '\r' ∧ t.head? = some '\n'
      · rw [crlfToLf, if_pos hcr] at h
        simp at h
      · rw [crlfToLf_cons hcr] at h
        simp at h
  · intro h
    rw [h]
    exact crlfToLf_nil

theorem ensureNl_cons {c : Char} {x : Str} (h : x ≠ [] ∨ c = '\n') :
    ensureNl (c :: x) = c :: ensureNl x := by
  rcases x with _ | ⟨y, ys⟩
  · rcases h with h | h
    · exact absurd rfl h
    · subst h
      rfl
  · rw [ensureNl, ensureNl]
    rw [if_neg (show ¬(c :: y :: ys = []) from by simp),
      if_neg (show ¬(y :: ys = []) from by simp)]
    rw [List.getLast?_cons_cons]
    by_cases hl : (y :: ys).getLast? = some '\n'
    · rw [if_pos hl, if_pos hl]
    · rw [if_neg hl, if_neg hl]
      rfl

theorem rustLines_eq_nil_iff {t : Str} : rustLines t = [] ↔ t = [] := by
  constructor
  · intro h
    rcases t with _ | ⟨c, r⟩
    · rfl
    · exfalso
      by_cases hc : c = '\n'
      · subst hc
        rw [rustLines_cons_nl] at h
        simp at h
      · by_cases hcr : c = '\r' ∧ r.head? = some '\n'
        · rcases r with _ | ⟨c₂, r₂⟩
          · simp at hcr
          · have : c₂ = '\n' := by simpa using hcr.2
            subst this
            rw [hcr.1] at h
            rw [rustLines_cons_crlf] at h
            simp at h
        · rw [rustLines_cons hc (fun h1 h2 => hcr ⟨h1, h2⟩)] at h
          rcases hrr : rustLines r with _ | ⟨l, ls⟩
          · rw [hrr] at h
            simp at h
          · rw [hrr] at h
            simp at h
  · intro h
    rw [h]
    rfl

theorem joinNl_rustLines (s : Str) : joinNl (rustLines s) = ensureNl (crlfToLf s) := by
  suffices hgen : ∀ (n : Nat) (s : Str), s.length ≤ n →
      joinNl (rustLines s) = ensureNl (crlfToLf s) from hgen s.length s le_rfl
  intro n
  induction n with
  | zero =>
    intro s hs
    rcases s with _ | ⟨c, t⟩
    · rw [rustLines_nil, crlfToLf_nil]
      rfl
    · simp at hs
  | succ n ih =>
    intro s hs
    rcases s with _ | ⟨c, t⟩
    · rw [rustLines_nil, crlfToLf_nil]
      rfl
    · by_cases hc : c = '\n'
      · subst hc
        rw [rustLines_cons_nl, crlfToLf_cons (by simp)]
        have hrec := ih t (by simp only [List.length_cons] at hs; omega)
        rw [show joinNl ([] :: rustLines t) = '\n' :: joinNl (rustLines t) from by
          simp [joinNl]]
        rw [hrec, ensureNl_cons (Or.inr rfl)]
      · by_cases hcr : c = '\r' ∧ t.head? = some '\n'
        · rcases t with _ | ⟨c₂, r⟩
          · simp at hcr
          · have hc₂ : c₂ = '\n' := by simpa using hcr.2
            subst hc₂
            rw [hcr.1]
            rw [rustLines_cons_crlf, crlfToLf_crlf]
            have hrec := ih r (by simp only [List.length_cons] at hs; omega)
            rw [show joinNl ([] :: rustLines r) = '\n' :: joinNl (rustLines r) from by
              simp [joinNl]]
            rw [hrec, ensureNl_cons (Or.inr rfl)]
        · rw [rustLines_cons hc (fun h1 h2 => hcr ⟨h1, h2⟩), crlfToLf_cons hcr]
          rcases hrl : rustLines t with _ | ⟨l, ls⟩
          · have ht : t = [] := rustLines_eq_nil_iff.1 hrl
            subst ht
            simp only [joinNl, List.map_cons, List.map_nil, List.flatten_cons,
              List.flatten_nil, List.append_nil, List.nil_append]
            rw [crlfToLf_nil]
            rw [show ensureNl [c] = [c] ++ ['\n'] from by simp [ensureNl, hc]]
          · have ht : t ≠ [] := by
              intro h
              rw [h] at hrl
              simp [rustLines_nil] at hrl
            have hrec := ih t (by simp only [List.length_cons] at hs; omega)
            rw [hrl] at hrec
            have hjoin : joinNl ((c :: l) :: ls) = c :: joinNl (l :: ls) := by
              simp [joinNl]
            rw [hjoin, hrec]
            rw [ensureNl_cons (Or.inl (fun h => ht (crlfToLf_eq_nil_iff.1 h)))]

theorem fold_no_fence : ∀ (ls : List Str) (st : MState), st.in_mermaid = false →
    (∀ l ∈ ls, rustTrim l ≠ fenceOpenTok) →
    ls.foldl embStep st = { st with result := st.result ++ joinNl ls }
  | [], st, _, _ => by simp [joinNl]
  | l :: ls, st, hm, h => by
    rw [List.foldl_cons, embStep_copy hm (h l (List.mem_cons_self _ _))]
    rw [fold_no_fence ls { st with result := st.result ++ l ++ ['\n'] } hm
      (fun x hx => h x (List.mem_cons_of_mem _ hx))]
    simp [joinNl, List.append_assoc]

/-- C3 (amended): for inputs whose lines contain no diagram fence opener, the
    extractor returns the input unchanged modulo CRLF→LF normalization and
    trailing-newline normalization, together with an empty diagram list. -/
theorem no_fence_extract_normalizes (content : Str)
    (h : ∀ l ∈ rustLines content, rustTrim l ≠ fenceOpenTok) :
    extract_mermaid_blocks content = (ensureNl (crlfToLf content), []) := by
  rw [extract_mermaid_blocks, fold_no_fence (rustLines content) initState rfl h]
  rw [show initState.result = [] from rfl]
  rw [List.nil_append]
  rw [joinNl_rustLines]
  rfl

/-- C3 as stated is false: on the fence-free CRLF input `"a\r\nb"` the
    extractor output differs from the input, even modulo a trailing newline —
    the CRLF is rewritten to LF. -/
theorem no_fence_extract_cex :
    (∀ l ∈ rustLines ("a\r\nb".toList), rustTrim l ≠ fenceOpenTok) ∧
    (extract_mermaid_blocks ("a\r\nb".toList)).2 = [] ∧
    (extract_mermaid_blocks ("a\r\nb".toList)).1 ≠ "a\r\nb".toList ∧
    (extract_mermaid_blocks ("a\r\nb".toList)).1 ≠ "a\r\nb".toList ++ ['\n'] := by
  decide

theorem no_fence_extract_normalizes_witness :
    extract_mermaid_blocks ("x\r\ny".toList) =
      (ensureNl (crlfToLf ("x\r\ny".toList)), []) :=
  no_fence_extract_normalizes ("x\r\ny".toList) (by decide)

/-! ### Processed-output normalization invariants (claim C10) -/

theorem embStep_result_ends_nl {st : MState} {line : Str}
    (h : st.result = [] ∨ st.result.getLast? = some '\n') :
    (embStep st line).result = [] ∨ (embStep st line).result.getLast? = some '\n' := by
  rw [embStep]
  split
  · exact h
  · split
    · right
      simp [List.getLast?_append]
    · split
      · exact h
      · right
        simp [List.getLast?_append]

theorem fold_result_ends_nl : ∀ (ls : List Str) (st : MState),
    (st.result = [] ∨ st.result.getLast? = some '\n') →
    ((ls.foldl embStep st).result = [] ∨
      (ls.foldl embStep st).result.getLast? = some '\n')
  | [], _, h => h
  | l :: ls, st, h => by
    rw [List.foldl_cons]
    exact fold_result_ends_nl ls (embStep st l) (embStep_result_ends_nl h)

theorem crProper_cons {c : Char} {t : Str} :
    crProper (c :: t) = ((if c = '\r' then decide (t.head? = some '\n') else true)
      && crProper t) := rfl

theorem rustLines_crlfToLf : ∀ (s : Str), crProper s = true →
    rustLines (crlfToLf s) = rustLines s := by
  suffices hgen : ∀ (n : Nat) (s : Str), s.length ≤ n → crProper s = true →
      rustLines (crlfToLf s) = rustLines s from fun s => hgen s.length s le_rfl
  intro n
  induction n with
  | zero =>
    intro s hs _
    rcases s with _ | ⟨c, t⟩
    · rw [crlfToLf_nil]
    · simp at hs
  | succ n ih =>
    intro s hs hpr
    rcases s with _ | ⟨c, t⟩
    · rw [crlfToLf_nil]
    · by_cases hr : c = '\r'
      · subst hr
        rw [crProper_cons, if_pos rfl] at hpr
        simp only [Bool.and_eq_true, decide_eq_true_eq] at hpr
        rcases t with _ | ⟨c₂, r⟩
        · simp at hpr
        · have hc₂ : c₂ = '\n' := by simpa using hpr.1
          subst hc₂
          rw [crlfToLf_crlf, rustLines_cons_nl, rustLines_cons_crlf]
          have hpr' : crProper r = true := by
            have := hpr.2
            rwa [crProper_cons, if_neg (by decide)] at this
          rw [ih r (by simp only [List.length_cons] at hs; omega) hpr']
      · have hpr' : crProper t = true := by
          rw [crProper_cons, if_neg hr] at hpr
          simpa using hpr
        have hcr : ¬ (c = '\r' ∧ t.head? = some '\n') := fun hcon => hr hcon.1
        rw [crlfToLf_cons hcr]
        by_cases hc : c = '\n'
        · subst hc
          rw [rustLines_cons_nl, rustLines_cons_nl]
          rw [ih t (by simp only [List.length_cons] at hs; omega) hpr']
        · rw [rustLines_cons hc (fun h1 _ => hr h1),
            rustLines_cons hc (fun h1 _ => hr h1)]
          rw [ih t (by simp only [List.length_cons] at hs; omega) hpr']

theorem splitNl_append_nl : ∀ (s : Str), splitNl (s ++ ['\n']) = splitNl s ++ [[]]
  | [] => by simp [splitNl]
  | c :: t => by
    by_cases hc : c = '\n'
    · subst hc
      rw [List.cons_append, splitNl_cons_nl, splitNl_cons_nl, splitNl_append_nl t]
      rfl
    · rcases hm : splitNl t with _ | ⟨l₀, ls₀⟩
      · exact absurd hm (splitNl_ne_nil t)
      · have hm' : splitNl (t ++ ['\n']) = l₀ :: (ls₀ ++ [[]]) := by
          rw [splitNl_append_nl t, hm]
          rfl
        rw [List.cons_append, splitNl_cons hc hm', splitNl_cons hc hm]
        rfl

theorem splitNl_last_piece : ∀ {s : Str}, s ≠ [] → s.getLast? ≠ some '\n' →
    ∃ p, (splitNl s).getLast? = some p ∧ p ≠ [] ∧ p.getLast? = s.getLast?
  | [], h0, _ => absurd rfl h0
  | c :: t, h0, h1 => by
    rcases ht : t with _ | ⟨c₂, r⟩
    · subst ht
      have hc : c ≠ '\n' := by
        intro h
        subst h
        exact h1 rfl
      refine ⟨[c], ?_, by simp, rfl⟩
      rw [show splitNl [c] = [[c]] from by
        rw [splitNl_cons hc (show splitNl [] = [] :: [] from rfl)]]
      rfl
    · have htne : t ≠ [] := by rw [ht]; simp
      have h1' : t.getLast? ≠ some '\n' := by
        rwa [show (c :: t).getLast? = t.getLast? from by
          rw [ht]; exact List.getLast?_cons_cons ..] at h1
      rw [← ht]
      obtain ⟨p, hp, hpne, hplast⟩ := splitNl_last_piece htne h1'
      by_cases hc : c = '\n'
      · subst hc
        refine ⟨p, ?_, hpne, ?_⟩
        · rw [splitNl_cons_nl]
          rcases hmm : splitNl t with _ | ⟨l₀, ls₀⟩
          · exact absurd hmm (splitNl_ne_nil t)
          · rw [hmm] at hp
            rw [List.getLast?_cons_cons, hp]
        · rw [hplast]
          rw [show ('\n' :: t).getLast? = t.getLast? from by
            rw [ht]; exact List.getLast?_cons_cons ..]
      · rcases hmm : splitNl t with _ | ⟨l₀, ls₀⟩
        · exact absurd hmm (splitNl_ne_nil t)
        · rw [splitNl_cons hc hmm]
          rcases ls₀ with _ | ⟨l₁, ls₁⟩
          · rw [hmm] at hp
            simp only [List.getLast?_singleton, Option.some.injEq] at hp
            subst hp
            refine ⟨c :: l₀, by simp, by simp, ?_⟩
            rw [show (c :: l₀).getLast? = l₀.getLast? from by
              rcases l₀ with _ | _
              · exact absurd rfl hpne
              · exact List.getLast?_cons_cons ..]
            rw [hplast]
            rw [show (c :: t).getLast? = t.getLast? from by
              rw [ht]; exact List.getLast?_cons_cons ..]
          · refine ⟨p, ?_, hpne, ?_⟩
            · rw [hmm] at hp
              rw [List.getLast?_cons_cons]
              rw [List.getLast?_cons_cons] at hp
              exact hp
            · rw [hplast]
              rw [show (c :: t).getLast? = t.getLast? from by
                rw [ht]; exact List.getLast?_cons_cons ..]

theorem rustLines_append_nl {s : Str} (h0 : s ≠ []) (h1 : s.getLast? ≠ some '\n')
    (h2 : s.getLast? ≠ some '\r') : rustLines (s ++ ['\n']) = rustLines s := by
  obtain ⟨p, hp, hpne, hplast⟩ := splitNl_last_piece h0 h1
  have hparts : splitNl s = (splitNl s).dropLast ++ [p] := by
    have hne := splitNl_ne_nil s
    have hgl : (splitNl s).getLast hne = p := by
      rw [List.getLast?_eq_getLast _ hne] at hp
      exact Option.some.inj hp
    rw [← hgl]
    exact (List.dropLast_append_getLast hne).symm
  have hlhs : rustLines (s ++ ['\n']) = (splitNl s).map stripCR := by
    rw [rustLines, splitNl_append_nl]
    rw [if_pos (by rw [List.getLast?_concat])]
    rw [List.append_nil, List.dropLast_concat]
  have hstrip : stripCR p = p := by
    rw [stripCR, if_neg (by rw [hplast]; exact h2)]
  rw [hlhs, rustLines]
  rw [if_neg (by rw [hp]; simp [hpne])]
  rw [show (splitNl s).getLastD [] = p from by
    rw [List.getLastD_eq_getLast?, hp]
    rfl]
  calc (splitNl s).map stripCR
      = ((splitNl s).dropLast ++ [p]).map stripCR := by rw [← hparts]
    _ = (splitNl s).dropLast.map stripCR ++ [stripCR p] := by simp
    _ = (splitNl s).dropLast.map stripCR ++ [p] := by rw [hstrip]

/-- C10 as stated is false: the empty input and the input `"\n"` differ only
    in the presence of a final trailing newline, yet their processed outputs
    differ. -/
theorem processed_normalization_cex :
    "".toList ++ ['\n'] = "\n".toList ∧
    (extract_mermaid_blocks ("".toList)).1 ≠ (extract_mermaid_blocks ("\n".toList)).1 := by
  constructor
  · rfl
  · decide

/-- C10 (amended): the processed markdown is empty or ends with a newline;
    CRLF line endings are normalized (extraction is invariant under CRLF→LF
    rewriting whenever every carriage return belongs to a CRLF pair); and a
    missing final newline does not affect extraction provided the input is
    nonempty and its last character is neither a newline nor a carriage
    return. -/
theorem processed_normalization (content : Str) :
    ((extract_mermaid_blocks content).1 = [] ∨
      (extract_mermaid_blocks content).1.getLast? = some '\n') ∧
    (crProper content = true →
      extract_mermaid_blocks (crlfToLf content) = extract_mermaid_blocks content) ∧
    (content ≠ [] → content.getLast? ≠ some '\n' → content.getLast? ≠ some '\r' →
      extract_mermaid_blocks (content ++ ['\n']) = extract_mermaid_blocks content) := by
  refine ⟨?_, ?_, ?_⟩
  · rw [extract_mermaid_blocks]
    exact fold_result_ends_nl (rustLines content) initState (Or.inl rfl)
  · intro hpr
    rw [extract_mermaid_blocks, extract_mermaid_blocks, rustLines_crlfToLf content hpr]
  · intro h0 h1 h2
    rw [extract_mermaid_blocks, extract_mermaid_blocks, rustLines_append_nl h0 h1 h2]

theorem processed_normalization_witness :
    extract_mermaid_blocks (crlfToLf ("a\r\nb".toList)) =
      extract_mermaid_blocks ("a\r\nb".toList) ∧
    extract_mermaid_blocks ("ab".toList ++ ['\n']) = extract_mermaid_blocks ("ab".toList) :=
  ⟨(processed_normalization ("a\r\nb".toList)).2.1 (by decide),
   (processed_normalization ("ab".toList)).2.2 (by decide) (by decide) (by decide)⟩

/-! ### Well-formed fence segmentation (claim C2) -/

/-- Modelled from the spec ("an ordered sequence of (index, raw diagram
    source) pairs, assigned strictly increasing indices in the order diagram
    fences are encountered, top to bottom, single pass, no nesting"): a
    segmentation of the input lines into plain lines and well-formed fences. -/
inductive FenceSeg where
  | plain (l : Str)
  | fence (body : List Str)
deriving DecidableEq

/-- Reference parser for well-formed fence structure: every opener line is
    later closed, with no opener inside a fence.  Returns `none` on an
    unterminated or restarted fence. -/
def fenceSegsAux : List Str → Bool → List Str → Option (List FenceSeg)
  | [], false, _ => some []
  | [], true, _ => none
  | l :: ls, false, acc =>
    if rustTrim l = fenceOpenTok then fenceSegsAux ls true []
    else (fenceSegsAux ls false acc).map (fun segs => .plain l :: segs)
  | l :: ls, true, acc =>
    if rustTrim l = fenceOpenTok then none
    else if rustTrim l = fenceCloseTok then
      (fenceSegsAux ls false []).map (fun segs => .fence acc :: segs)
    else fenceSegsAux ls true (acc ++ [l])

def fenceSegs (lines : List Str) : Option (List FenceSeg) := fenceSegsAux lines false []

/-- The diagram bodies of a segmentation, in source order. -/
def fenceBodies : List FenceSeg → List (List Str)
  | [] => []
  | .plain _ :: segs => fenceBodies segs
  | .fence b :: segs => b :: fenceBodies segs

/-- The processed lines a segmentation renders to, numbering fences from `n`. -/
def renderSegs : List FenceSeg → Nat → List Str
  | [], _ => []
  | .plain l :: segs, n => l :: renderSegs segs n
  | .fence _ :: segs, n => (MERMAID_PLACEHOLDER ++ natDigits n) :: renderSegs segs (n + 1)

theorem fenceSegsAux_true_elim : ∀ (ls : List Str) (acc : List Str) (segs : List FenceSeg),
    fenceSegsAux ls true acc = some segs →
    ∃ body closer rest segs', ls = body ++ closer :: rest ∧
      (∀ b ∈ body, rustTrim b ≠ fenceOpenTok ∧ rustTrim b ≠ fenceCloseTok) ∧
      rustTrim closer = fenceCloseTok ∧
      fenceSegsAux rest false [] = some segs' ∧
      segs = .fence (acc ++ body) :: segs'
  | [], acc, segs, h => by simp [fenceSegsAux] at h
  | l :: ls, acc, segs, h => by
    by_cases ho : rustTrim l = fenceOpenTok
    · rw [fenceSegsAux, if_pos ho] at h
      simp at h
    · by_cases hc : rustTrim l = fenceCloseTok
      · rw [fenceSegsAux, if_neg ho, if_pos hc] at h
        rcases hrec : fenceSegsAux ls false [] with _ | segs'
        · rw [hrec] at h
          simp at h
        · rw [hrec] at h
          rw [show Option.map (fun segs => FenceSeg.fence acc :: segs) (some segs') =
            some (FenceSeg.fence acc :: segs') from rfl] at h
          exact ⟨[], l, ls, segs', by simp, by simp, hc, hrec,
            by rw [List.append_nil]; exact (Option.some.inj h).symm⟩
      · rw [fenceSegsAux, if_neg ho, if_neg hc] at h
        obtain ⟨body, closer, rest, segs', hls, hbody, hcl, hrest, hsegs⟩ :=
          fenceSegsAux_true_elim ls (acc ++ [l]) segs h
        refine ⟨l :: body, closer, rest, segs', by rw [hls, List.cons_append], ?_, hcl, hrest, ?_⟩
        · intro b hb
          rcases List.mem_cons.1 hb with rfl | hb
          · exact ⟨ho, hc⟩
          · exact hbody b hb
        · rw [hsegs]
          simp

theorem fold_fenceSegs : ∀ (n : Nat) (ls : List Str) (st : MState) (segs : List FenceSeg),
    ls.length ≤ n → st.in_mermaid = false → fenceSegsAux ls false [] = some segs →
    ((ls.foldl embStep st).result =
        st.result ++ joinNl (renderSegs segs st.mermaid_blocks.length) ∧
      (ls.foldl embStep st).mermaid_blocks =
        st.mermaid_blocks ++ (fenceBodies segs).map joinNl ∧
      (ls.foldl embStep st).in_mermaid = false) := by
  intro n
  induction n with
  | zero =>
    intro ls st segs hlen hm hseg
    rcases ls with _ | ⟨l, ls'⟩
    · rw [show fenceSegsAux [] false [] = some [] from rfl] at hseg
      rcases Option.some.inj hseg
      refine ⟨?_, ?_, hm⟩ <;> simp [renderSegs, joinNl, fenceBodies]
    · simp at hlen
  | succ n ih =>
    intro ls st segs hlen hm hseg
    rcases ls with _ | ⟨l, ls'⟩
    · rw [show fenceSegsAux [] false [] = some [] from rfl] at hseg
      rcases Option.some.inj hseg
      refine ⟨?_, ?_, hm⟩ <;> simp [renderSegs, joinNl, fenceBodies]
    · by_cases ho : rustTrim l = fenceOpenTok
      · rw [fenceSegsAux, if_pos ho] at hseg
        obtain ⟨body, closer, rest, segs', hls, hbody, hcl, hrest, hsegs⟩ :=
          fenceSegsAux_true_elim ls' [] segs hseg
        subst hsegs
        rw [List.foldl_cons, embStep_open ho, hls, List.foldl_append, List.foldl_cons]
        rw [fold_body_buffers body { st with in_mermaid := true, mermaid_content := [] }
          rfl hbody]
        rw [@embStep_close
          { st with in_mermaid := true, mermaid_content := [] ++ joinNl body } closer rfl hcl]
        have hlen' : rest.length ≤ n := by
          rw [hls] at hlen
          simp only [List.length_cons, List.length_append] at hlen
          omega
        obtain ⟨h1, h2, h3⟩ := ih rest
          { result := st.result ++ MERMAID_PLACEHOLDER ++
              natDigits st.mermaid_blocks.length ++ ['\n'],
            mermaid_blocks := st.mermaid_blocks ++ [[] ++ joinNl body],
            in_mermaid := false,
            mermaid_content := [] ++ joinNl body } segs' hlen' rfl hrest
        refine ⟨?_, ?_, h3⟩
        · rw [h1]
          simp only [renderSegs, joinNl, List.map_cons, List.flatten_cons, List.nil_append,
            List.length_append, List.length_cons, List.length_nil, List.append_assoc]
        · rw [h2]
          simp only [fenceBodies, List.map_cons, List.nil_append, List.append_assoc,
            List.cons_append, List.nil_append]
      · rw [fenceSegsAux, if_neg ho] at hseg
        rcases hrec : fenceSegsAux ls' false [] with _ | segs'
        · rw [hrec] at hseg
          simp at hseg
        · rw [hrec] at hseg
          rw [show Option.map (fun segs => FenceSeg.plain l :: segs) (some segs') =
            some (FenceSeg.plain l :: segs') from rfl] at hseg
          rcases Option.some.inj hseg
          rw [List.foldl_cons, embStep_copy hm ho]
          have hlen' : ls'.length ≤ n := by
            simp only [List.length_cons] at hlen
            omega
          obtain ⟨h1, h2, h3⟩ := ih ls'
            { st with result := st.result ++ l ++ ['\n'] } segs' hlen' hm hrec
          refine ⟨?_, ?_, h3⟩
          · rw [h1]
            simp only [renderSegs, joinNl, List.map_cons, List.flatten_cons,
              List.append_assoc]
          · rw [h2]
            rfl

theorem splitNl_append_line : ∀ {l : Str}, '\n' ∉ l → ∀ (rest : Str),
    splitNl (l ++ '\n' :: rest) = l :: splitNl rest
  | [], _, rest => by
    rw [List.nil_append, splitNl_cons_nl]
  | c :: l', hl, rest => by
    have hc : c ≠ '\n' := fun h => hl (by rw [h]; exact List.mem_cons_self _ _)
    rw [List.cons_append,
      splitNl_cons hc (splitNl_append_line (fun h => hl (List.mem_cons_of_mem _ h)) rest)]

theorem splitNl_joinNl : ∀ {items : List Str}, (∀ l ∈ items, '\n' ∉ l) →
    splitNl (joinNl items) = items ++ [[]]
  | [], _ => rfl
  | l :: items, h => by
    have hj : joinNl (l :: items) = l ++ '\n' :: joinNl items := by
      simp [joinNl]
    rw [hj, splitNl_append_line (h l (List.mem_cons_self _ _)) _,
      splitNl_joinNl (fun x hx => h x (List.mem_cons_of_mem _ hx))]
    rfl

theorem rustLines_joinNl {items : List Str} (h : ∀ l ∈ items, '\n' ∉ l) :
    rustLines (joinNl items) = items.map stripCR := by
  rw [rustLines, splitNl_joinNl h]
  rw [if_pos (by rw [List.getLast?_concat])]
  rw [List.append_nil, List.dropLast_concat]

theorem fenceSegsAux_plain_mem : ∀ (ls : List Str) (mode : Bool) (acc : List Str)
    (segs : List FenceSeg), fenceSegsAux ls mode acc = some segs →
    ∀ l, FenceSeg.plain l ∈ segs → l ∈ ls
  | [], false, acc, segs, h => by
    rcases Option.some.inj h
    intro l hl
    simp at hl
  | [], true, acc, segs, h => by simp [fenceSegsAux] at h
  | l₀ :: ls, false, acc, segs, h => by
    by_cases ho : rustTrim l₀ = fenceOpenTok
    · rw [fenceSegsAux, if_pos ho] at h
      intro l hl
      exact List.mem_cons_of_mem _ (fenceSegsAux_plain_mem ls true [] segs h l hl)
    · rw [fenceSegsAux, if_neg ho] at h
      rcases hrec : fenceSegsAux ls false acc with _ | segs'
      · rw [hrec] at h
        simp at h
      · rw [hrec] at h
        rw [show Option.map (fun segs => FenceSeg.plain l₀ :: segs) (some segs') =
          some (FenceSeg.plain l₀ :: segs') from rfl] at h
        rcases Option.some.inj h
        intro l hl
        rcases List.mem_cons.1 hl with heq | hl
        · rcases heq
          exact List.mem_cons_self _ _
        · exact List.mem_cons_of_mem _ (fenceSegsAux_plain_mem ls false acc segs' hrec l hl)
  | l₀ :: ls, true, acc, segs, h => by
    by_cases ho : rustTrim l₀ = fenceOpenTok
    · rw [fenceSegsAux, if_pos ho] at h
      simp at h
    · by_cases hc : rustTrim l₀ = fenceCloseTok
      · rw [fenceSegsAux, if_neg ho, if_pos hc] at h
        rcases hrec : fenceSegsAux ls false [] with _ | segs'
        · rw [hrec] at h
          simp at h
        · rw [hrec] at h
          rw [show Option.map (fun segs => FenceSeg.fence acc :: segs) (some segs') =
            some (FenceSeg.fence acc :: segs') from rfl] at h
          rcases Option.some.inj h
          intro l hl
          rcases List.mem_cons.1 hl with heq | hl
          · simp at heq
          · exact List.mem_cons_of_mem _ (fenceSegsAux_plain_mem ls false [] segs' hrec l hl)
      · rw [fenceSegsAux, if_neg ho, if_neg hc] at h
        intro l hl
        exact List.mem_cons_of_mem _
          (fenceSegsAux_plain_mem ls true (acc ++ [l₀]) segs h l hl)

theorem placeholder_item_no_nl (n : Nat) : '\n' ∉ MERMAID_PLACEHOLDER ++ natDigits n := by
  intro h
  rcases List.mem_append.1 h with h | h
  · exact nl_not_mem_placeholder h
  · have := natDigits_all_digit n '\n' h
    simp at this

theorem stripCR_placeholder (n : Nat) :
    stripCR (MERMAID_PLACEHOLDER ++ natDigits n) = MERMAID_PLACEHOLDER ++ natDigits n := by
  rw [stripCR, if_neg]
  intro hcon
  rw [List.getLast?_append] at hcon
  have hne := natDigits_ne_nil n
  rw [List.getLast?_eq_getLast _ hne] at hcon
  have : (natDigits n).getLast hne = '\r' := by
    have := hcon
    simp only [Option.or_some, Option.some.injEq] at this
    exact this
  have hd := natDigits_all_digit n _ (List.getLast_mem hne)
  rw [this] at hd
  simp at hd

theorem renderSegs_filter : ∀ (segs : List FenceSeg) (n : Nat),
    (∀ l, FenceSeg.plain l ∈ segs → MERMAID_PLACEHOLDER.isPrefixOf (stripCR l) = false) →
    ((renderSegs segs n).map stripCR).filter
        (fun l => MERMAID_PLACEHOLDER.isPrefixOf l) =
      (List.range' n (fenceBodies segs).length).map
        (fun i => MERMAID_PLACEHOLDER ++ natDigits i)
  | [], n, _ => rfl
  | .plain l :: segs, n, h => by
    rw [show renderSegs (FenceSeg.plain l :: segs) n = l :: renderSegs segs n from rfl]
    rw [List.map_cons, List.filter_cons]
    rw [h l (List.mem_cons_self _ _)]
    rw [renderSegs_filter segs n (fun x hx => h x (List.mem_cons_of_mem _ hx))]
    rfl
  | .fence b :: segs, n, h => by
    rw [show renderSegs (FenceSeg.fence b :: segs) n =
      (MERMAID_PLACEHOLDER ++ natDigits n) :: renderSegs segs (n + 1) from rfl]
    rw [List.map_cons, stripCR_placeholder, List.filter_cons]
    rw [show (MERMAID_PLACEHOLDER.isPrefixOf (MERMAID_PLACEHOLDER ++ natDigits n)) = true
      from List.isPrefixOf_iff_prefix.2 (List.prefix_append _ _)]
    rw [renderSegs_filter segs (n + 1) (fun x hx => h x (List.mem_cons_of_mem _ hx))]
    rw [show fenceBodies (FenceSeg.fence b :: segs) = b :: fenceBodies segs from rfl]
    rw [List.length_cons, List.range'_succ, List.map_cons]
    rfl

theorem placeholder_map_nodup (n k : Nat) :
    ((List.range' n k).map (fun i => MERMAID_PLACEHOLDER ++ natDigits i)).Nodup := by
  refine List.Nodup.map ?_ (List.nodup_range' n k 1 (by omega))
  intro a b hab
  exact natDigits_inj (List.append_cancel_left hab)

/-- C2 (amended): for inputs that do not contain the placeholder prefix and
    whose lines form `N` well-formed diagram fences, extraction returns
    exactly the `N` fence bodies, in source order, and the processed markdown
    contains exactly `N` placeholder lines, pairwise distinct, numbered
    sequentially from 0. -/
theorem wellformed_extraction (content : Str) (segs : List FenceSeg)
    (hseg : fenceSegs (rustLines content) = some segs)
    (hfree : ¬ MERMAID_PLACEHOLDER <:+: content) :
    (extract_mermaid_blocks content).2 = (fenceBodies segs).map joinNl ∧
    (extract_mermaid_blocks content).2.length = (fenceBodies segs).length ∧
    (rustLines (extract_mermaid_blocks content).1).filter
        (fun l => MERMAID_PLACEHOLDER.isPrefixOf l) =
      (List.range (fenceBodies segs).length).map
        (fun i => MERMAID_PLACEHOLDER ++ natDigits i) ∧
    ((rustLines (extract_mermaid_blocks content).1).filter
        (fun l => MERMAID_PLACEHOLDER.isPrefixOf l)).Nodup := by
  obtain ⟨h1, h2, _⟩ := fold_fenceSegs (rustLines content).length (rustLines content)
    initState segs le_rfl rfl hseg
  have hplain : ∀ l, FenceSeg.plain l ∈ segs →
      MERMAID_PLACEHOLDER.isPrefixOf (stripCR l) = false := by
    intro l hl
    by_contra hcon
    have hpre : MERMAID_PLACEHOLDER <+: stripCR l :=
      List.isPrefixOf_iff_prefix.1 (by revert hcon; cases MERMAID_PLACEHOLDER.isPrefixOf (stripCR l) <;> simp)
    have hmem : l ∈ rustLines content :=
      fenceSegsAux_plain_mem (rustLines content) false [] segs hseg l hl
    exact hfree (hpre.isInfix.trans ((stripCR_pre l).isInfix.trans (rustLines_sub hmem)))
  have hnl : ∀ l ∈ renderSegs segs 0, '\n' ∉ l := by
    have hgen : ∀ (segs' : List FenceSeg) (n : Nat),
        (∀ l, FenceSeg.plain l ∈ segs' → l ∈ rustLines content) →
        ∀ l ∈ renderSegs segs' n, '\n' ∉ l := by
      intro segs'
      induction segs' with
      | nil => intro n _ l hl; simp [renderSegs] at hl
      | cons sg segs'' ih =>
        intro n hpm l hl
        cases sg with
        | plain p =>
          rcases List.mem_cons.1 hl with rfl | hl
          · exact rustLines_no_nl (hpm l (List.mem_cons_self _ _))
          · exact ih n (fun x hx => hpm x (List.mem_cons_of_mem _ hx)) l hl
        | fence b =>
          rcases List.mem_cons.1 hl with rfl | hl
          · exact placeholder_item_no_nl n
          · exact ih (n + 1) (fun x hx => hpm x (List.mem_cons_of_mem _ hx)) l hl
    exact hgen segs 0 (fun l hl => fenceSegsAux_plain_mem (rustLines content) false [] segs hseg l hl)
  have hproc : (extract_mermaid_blocks content).1 = joinNl (renderSegs segs 0) := by
    rw [extract_mermaid_blocks]
    rw [h1]
    rfl
  have hblocks : (extract_mermaid_blocks content).2 = (fenceBodies segs).map joinNl := by
    rw [extract_mermaid_blocks]
    rw [h2]
    rfl
  refine ⟨hblocks, by rw [hblocks]; simp, ?_, ?_⟩
  · rw [hproc, rustLines_joinNl hnl, renderSegs_filter segs 0 hplain,
      List.range_eq_range']
  · rw [hproc, rustLines_joinNl hnl, renderSegs_filter segs 0 hplain]
    exact placeholder_map_nodup 0 _

/-- C2 as stated is false: a plain line that happens to spell a placeholder
    makes the processed markdown contain two identical placeholder lines for
    a single well-formed fence. -/
theorem wellformed_extraction_cex :
    fenceSegs (rustLines ("MERMAID_DIAGRAM_PLACEHOLDER_0\n```mermaid\ng\n```".toList)) =
      some [FenceSeg.plain ("MERMAID_DIAGRAM_PLACEHOLDER_0".toList),
        FenceSeg.fence ["g".toList]] ∧
    (fenceBodies [FenceSeg.plain ("MERMAID_DIAGRAM_PLACEHOLDER_0".toList),
      FenceSeg.fence ["g".toList]]).length = 1 ∧
    (rustLines (extract_mermaid_blocks
        ("MERMAID_DIAGRAM_PLACEHOLDER_0\n```mermaid\ng\n```".toList)).1).filter
        (fun l => MERMAID_PLACEHOLDER.isPrefixOf l) ≠
      (List.range 1).map (fun i => MERMAID_PLACEHOLDER ++ natDigits i) ∧
    ¬ ((rustLines (extract_mermaid_blocks
        ("MERMAID_DIAGRAM_PLACEHOLDER_0\n```mermaid\ng\n```".toList)).1).filter
        (fun l => MERMAID_PLACEHOLDER.isPrefixOf l)).Nodup := by
  decide

def c2SampleContent : Str := "# T\n```mermaid\na\nb\n```\nt\n```mermaid\nc\n```".toList

def c2SampleSegs : List FenceSeg :=
  [.plain ("# T".toList), .fence ["a".toList, "b".toList], .plain ("t".toList),
   .fence ["c".toList]]

theorem wellformed_extraction_witness :
    (extract_mermaid_blocks c2SampleContent).2 = (fenceBodies c2SampleSegs).map joinNl ∧
    (rustLines (extract_mermaid_blocks c2SampleContent).1).filter
        (fun l => MERMAID_PLACEHOLDER.isPrefixOf l) =
      (List.range 2).map (fun i => MERMAID_PLACEHOLDER ++ natDigits i) := by
  have h := wellformed_extraction c2SampleContent c2SampleSegs (by decide) (by decide)
  refine ⟨h.1, ?_⟩
  have h3 := h.2.2.1
  rw [show (fenceBodies c2SampleSegs).length = 2 from rfl] at h3
  exact h3

/-! ### Placeholder-substitution invariant (claim C1)

`Good k N s` says: every occurrence of the placeholder prefix in `s` is an
intact numbered placeholder with index `< N`, followed by a character that can
neither extend the digit run nor restart a prefix, and not matched by any of
the substitution steps `0 .. k-1` already performed. -/

def Follower (r : Str) : Prop :=
  ∀ c, r.head? = some c → c.isDigit = false ∧ c ∉ MERMAID_PLACEHOLDER

def Good (k N : Nat) (s : Str) : Prop :=
  ∀ l r, s = l ++ (MERMAID_PLACEHOLDER ++ r) →
    ∃ i, i < N ∧ (∃ r', r = natDigits i ++ r' ∧ Follower r') ∧
      ∀ j, j < k → ¬ natDigits j <+: natDigits i

theorem good_final {N : Nat} {s : Str} (h : Good N N s) :
    ¬ MERMAID_PLACEHOLDER <:+: s := by
  intro hocc
  rcases infix_parts hocc with ⟨l, r, hlr⟩
  obtain ⟨i, hiN, _, hj⟩ := h l r hlr
  exact hj i hiN List.prefix_rfl

theorem placeholder_head : MERMAID_PLACEHOLDER.head? = some 'M' := rfl

theorem natDigits_head_digit (n : Nat) :
    ∃ d, (natDigits n).head? = some d ∧ d.isDigit = true := by
  rcases hd : natDigits n with _ | ⟨d, ds⟩
  · exact absurd hd (natDigits_ne_nil n)
  · exact ⟨d, rfl, natDigits_all_digit n d (by rw [hd]; exact List.mem_cons_self _ _)⟩

theorem rustTrim_sub (l : Str) : rustTrim l <:+: l := by
  rw [rustTrim]
  have h1 : l.dropWhile isRustWhitespace <:+ l := List.dropWhile_suffix _
  have h2 : (l.dropWhile isRustWhitespace).reverse.dropWhile isRustWhitespace <:+
      (l.dropWhile isRustWhitespace).reverse := List.dropWhile_suffix _
  rcases h2 with ⟨t, ht⟩
  have hp : ((l.dropWhile isRustWhitespace).reverse.dropWhile isRustWhitespace).reverse <+:
      l.dropWhile isRustWhitespace := by
    refine ⟨t.reverse, ?_⟩
    have := congrArg List.reverse ht
    simpa [List.reverse_append] using this
  exact hp.isInfix.trans h1.isInfix

theorem mermaidDiv_ne_nil (code : Str) : mermaidDiv code ≠ [] := by
  rw [mermaidDiv]
  simp

theorem mermaidDiv_head (code : Str) : (mermaidDiv code).head? = some '<' := rfl

theorem mermaidDiv_last (code : Str) : (mermaidDiv code).getLast? = some '>' := by
  rw [mermaidDiv, List.append_assoc, List.getLast?_append, List.getLast?_append]
  rfl

theorem noOcc_mermaidDiv {code : Str} (h : ¬ MERMAID_PLACEHOLDER <:+: code) :
    ¬ MERMAID_PLACEHOLDER <:+: mermaidDiv code := by
  rw [mermaidDiv, List.append_assoc]
  refine noOcc_append_left (by decide) ?_ ?_
  · refine noOcc_append_right ?_ (by decide) ?_
    · intro hocc
      exact h (hocc.trans (rustTrim_sub code))
    · intro x hx
      rw [show ("\n</div>".toList).head? = some '\n' from rfl] at hx
      cases Option.some.inj hx
      decide
  · intro x hx
    rw [show ("<div class=\"mermaid\">\n".toList).getLast? = some '\n' from by decide] at hx
    cases Option.some.inj hx
    decide

/-- Inside the appended placeholder segment, the prefix occurs only at the
    very start. -/
theorem placeholder_segment_occ {n : Nat} {l₂ r : Str}
    (h : MERMAID_PLACEHOLDER ++ (natDigits n ++ ['\n']) = l₂ ++ (MERMAID_PLACEHOLDER ++ r)) :
    l₂ = [] ∧ r = natDigits n ++ ['\n'] := by
  have hdigit : ∀ c ∈ natDigits n ++ ['\n'], c.isDigit = true ∨ c = '\n' := by
    intro c hc
    rcases List.mem_append.1 hc with hc | hc
    · exact Or.inl (natDigits_all_digit n c hc)
    · exact Or.inr (List.mem_singleton.1 hc)
  rcases occ_split h with ⟨r₂, h1, h2⟩ | ⟨l₃, _, h2⟩ | ⟨p₁, p₂, hp, _, hp2, _, hB⟩
  · have hlen := congrArg List.length h1
    simp only [List.length_append] at hlen
    have hl₂ : l₂ = [] := List.eq_nil_of_length_eq_zero (by omega)
    have hr₂ : r₂ = [] := List.eq_nil_of_length_eq_zero (by omega)
    subst hl₂
    subst hr₂
    refine ⟨rfl, ?_⟩
    simpa using h2
  · exfalso
    have hMP : 'M' ∈ MERMAID_PLACEHOLDER := by decide
    have hM : 'M' ∈ natDigits n ++ ['\n'] := by
      rw [h2]
      exact List.mem_append.2 (Or.inl (List.mem_append.2 (Or.inr hMP)))
    rcases hdigit 'M' hM with hM | hM
    · simp at hM
    · simp at hM
  · exfalso
    have hBhead : (natDigits n ++ ['\n']).head? = some (p₂.head hp2) := by
      rw [hB, List.head?_append, List.head?_eq_head hp2]
      rfl
    rcases natDigits_head_digit n with ⟨d, hd, hdig⟩
    have hBd : (natDigits n ++ ['\n']).head? = some d := by
      rw [List.head?_append, hd]
      rfl
    have hpd : p₂.head hp2 = d := by
      rw [hBd] at hBhead
      exact (Option.some.inj hBhead).symm
    have hhd : p₂.head hp2 ∈ MERMAID_PLACEHOLDER := by
      rw [hp]
      exact List.mem_append.2 (Or.inr (List.head_mem hp2))
    rw [hpd] at hhd
    have hfalse := placeholder_no_digit d hhd
    rw [hdig] at hfalse
    exact absurd hfalse (by simp)

theorem noOcc_nil : ¬ MERMAID_PLACEHOLDER <:+: ([] : Str) := by decide

theorem noOcc_line_nl {line : Str} (h : ¬ MERMAID_PLACEHOLDER <:+: line) :
    ¬ MERMAID_PLACEHOLDER <:+: (line ++ ['\n']) := by
  refine noOcc_append_right h (by decide) ?_
  intro x hx
  cases Option.some.inj hx
  decide

theorem ends_nl_append {A B : Str} (hB : B.getLast? = some '\n') :
    (A ++ B) = [] ∨ (A ++ B).getLast? = some '\n' := by
  right
  rw [List.getLast?_append, hB]
  rfl

/-- A `Good` string stays `Good` when prefix-free text is appended after a
    newline boundary. -/
theorem good_append_free {n : Nat} {A B : Str} (hA : Good 0 n A)
    (hAe : A = [] ∨ A.getLast? = some '\n') (hB : ¬ MERMAID_PLACEHOLDER <:+: B) :
    Good 0 n (A ++ B) := by
  intro l r hlr
  rcases occ_split hlr with ⟨r₂, h1, h2⟩ | ⟨l₂, _, h2⟩ | ⟨p₁, p₂, hp, hp1, _, hA2, _⟩
  · obtain ⟨i, hi, ⟨r', hr', hf⟩, _⟩ := hA l r₂ (by rw [h1, List.append_assoc])
    refine ⟨i, hi, ⟨r' ++ B, ?_, ?_⟩, by omega⟩
    · rw [h2, hr', List.append_assoc]
    · rcases hr'' : r' with _ | ⟨c, r''⟩
      · exfalso
        subst hr''
        rw [List.append_nil] at hr'
        have hAne : A ≠ [] := by
          rw [h1]
          intro hc
          have := congrArg List.length hc
          simp [MERMAID_PLACEHOLDER] at this
        rcases hAe with hAe | hAe
        · exact hAne hAe
        · have hlast : A.getLast? = (natDigits i).getLast? := by
            rw [h1, hr', List.getLast?_append, List.getLast?_append,
              List.getLast?_eq_getLast _ (natDigits_ne_nil i)]
            rfl
          rw [hAe, List.getLast?_eq_getLast _ (natDigits_ne_nil i)] at hlast
          have hmem := natDigits_all_digit i _ (List.getLast_mem (natDigits_ne_nil i))
          rw [← Option.some.inj hlast] at hmem
          simp at hmem
      · intro x hx
        rw [List.cons_append, List.head?_cons] at hx
        cases Option.some.inj hx
        exact hf c (by rw [hr'']; rfl)
  · exact absurd ⟨l₂, r, by rw [h2, List.append_assoc]⟩ hB
  · exfalso
    have hAne : A ≠ [] := by
      intro hnil
      rw [hnil] at hA2
      exact hp1 (List.eq_nil_of_length_eq_zero (by
        have := congrArg List.length hA2
        simp at this
        omega))
    rcases hAe with hAe | hAe
    · exact hAne hAe
    · have hlast : A.getLast? = some (p₁.getLast hp1) := by
        rw [hA2, List.getLast?_append, List.getLast?_eq_getLast _ hp1]
        rfl
      rw [hAe] at hlast
      have hmem : p₁.getLast hp1 ∈ MERMAID_PLACEHOLDER := by
        rw [hp]
        exact List.mem_append.2 (Or.inl (List.getLast_mem hp1))
      rw [← Option.some.inj hlast] at hmem
      exact absurd hmem (by decide)

/-- Appending a fresh placeholder line extends `Good` to the next index. -/
theorem good_append_placeholder {n : Nat} {A : Str} (hA : Good 0 n A)
    (hAe : A = [] ∨ A.getLast? = some '\n') :
    Good 0 (n + 1) (A ++ (MERMAID_PLACEHOLDER ++ (natDigits n ++ ['\n']))) := by
  intro l r hlr
  rcases occ_split hlr with ⟨r₂, h1, h2⟩ | ⟨l₂, _, h2⟩ | ⟨p₁, p₂, hp, hp1, _, hA2, _⟩
  · obtain ⟨i, hi, ⟨r', hr', hf⟩, _⟩ := hA l r₂ (by rw [h1, List.append_assoc])
    refine ⟨i, by omega, ⟨r' ++ (MERMAID_PLACEHOLDER ++ (natDigits n ++ ['\n'])), ?_, ?_⟩,
      by omega⟩
    · rw [h2, hr', List.append_assoc]
    · rcases hr'' : r' with _ | ⟨c, r''⟩
      · exfalso
        subst hr''
        rw [List.append_nil] at hr'
        have hAne : A ≠ [] := by
          rw [h1]
          intro hc
          have := congrArg List.length hc
          simp [MERMAID_PLACEHOLDER] at this
        rcases hAe with hAe | hAe
        · exact hAne hAe
        · have hlast : A.getLast? = (natDigits i).getLast? := by
            rw [h1, hr', List.getLast?_append, List.getLast?_append,
              List.getLast?_eq_getLast _ (natDigits_ne_nil i)]
            rfl
          rw [hAe, List.getLast?_eq_getLast _ (natDigits_ne_nil i)] at hlast
          have hmem := natDigits_all_digit i _ (List.getLast_mem (natDigits_ne_nil i))
          rw [← Option.some.inj hlast] at hmem
          simp at hmem
      · intro x hx
        rw [List.cons_append, List.head?_cons] at hx
        cases Option.some.inj hx
        exact hf c (by rw [hr'']; rfl)
  · obtain ⟨hl₂, hr⟩ := placeholder_segment_occ (by rw [List.append_assoc] at h2; exact h2)
    refine ⟨n, by omega, ⟨['\n'], by rw [hr], ?_⟩, by omega⟩
    intro x hx
    cases Option.some.inj hx
    exact ⟨by decide, by decide⟩
  · exfalso
    have hAne : A ≠ [] := by
      intro hnil
      rw [hnil] at hA2
      exact hp1 (List.eq_nil_of_length_eq_zero (by
        have := congrArg List.length hA2
        simp at this
        omega))
    rcases hAe with hAe | hAe
    · exact hAne hAe
    · have hlast : A.getLast? = some (p₁.getLast hp1) := by
        rw [hA2, List.getLast?_append, List.getLast?_eq_getLast _ hp1]
        rfl
      rw [hAe] at hlast
      have hmem : p₁.getLast hp1 ∈ MERMAID_PLACEHOLDER := by
        rw [hp]
        exact List.mem_append.2 (Or.inl (List.getLast_mem hp1))
      rw [← Option.some.inj hlast] at hmem
      exact absurd hmem (by decide)

theorem noOcc_append_nlend {A B : Str} (hA : ¬ MERMAID_PLACEHOLDER <:+: A)
    (hAe : A = [] ∨ A.getLast? = some '\n') (hB : ¬ MERMAID_PLACEHOLDER <:+: B) :
    ¬ MERMAID_PLACEHOLDER <:+: (A ++ B) := by
  rcases hAe with h | h
  · rw [h, List.nil_append]
    exact hB
  · refine noOcc_append_left hA hB ?_
    intro x hx
    rw [h] at hx
    cases Option.some.inj hx
    decide

/-- Invariant maintained by the extraction fold on placeholder-free lines. -/
def EmbInv (st : MState) : Prop :=
  Good 0 st.mermaid_blocks.length st.result ∧
  (st.result = [] ∨ st.result.getLast? = some '\n') ∧
  (∀ b ∈ st.mermaid_blocks, ¬ MERMAID_PLACEHOLDER <:+: b) ∧
  ¬ MERMAID_PLACEHOLDER <:+: st.mermaid_content ∧
  (st.mermaid_content = [] ∨ st.mermaid_content.getLast? = some '\n')

theorem embStep_emb_inv {st : MState} {line : Str}
    (hline : ¬ MERMAID_PLACEHOLDER <:+: line) (inv : EmbInv st) :
    EmbInv (embStep st line) := by
  obtain ⟨hg, hre, hbl, hbuf, hbe⟩ := inv
  by_cases h1 : rustTrim line = fenceOpenTok
  · rw [embStep, if_pos h1]
    exact ⟨hg, hre, hbl, noOcc_nil, Or.inl rfl⟩
  · by_cases h2 : st.in_mermaid = true ∧ rustTrim line = fenceCloseTok
    · rw [embStep, if_neg h1, if_pos h2]
      refine ⟨?_, ?_, ?_, hbuf, hbe⟩
      · show Good 0 (st.mermaid_blocks ++ [st.mermaid_content]).length
          (st.result ++ MERMAID_PLACEHOLDER ++ natDigits st.mermaid_blocks.length ++ ['\n'])
        rw [List.length_append, List.length_singleton, List.append_assoc, List.append_assoc]
        exact good_append_placeholder hg hre
      · right
        show (st.result ++ MERMAID_PLACEHOLDER ++ natDigits st.mermaid_blocks.length ++
          ['\n']).getLast? = some '\n'
        rw [List.getLast?_append]
        rfl
      · intro b hb
        rcases List.mem_append.1 hb with hb | hb
        · exact hbl b hb
        · rw [List.mem_singleton.1 hb]
          exact hbuf
    · by_cases h3 : st.in_mermaid = true
      · rw [embStep, if_neg h1, if_neg h2, if_pos h3]
        refine ⟨hg, hre, hbl, ?_, ?_⟩
        · show ¬ MERMAID_PLACEHOLDER <:+: (st.mermaid_content ++ line ++ ['\n'])
          rw [List.append_assoc]
          exact noOcc_append_nlend hbuf hbe (noOcc_line_nl hline)
        · right
          show (st.mermaid_content ++ line ++ ['\n']).getLast? = some '\n'
          rw [List.getLast?_append]
          rfl
      · rw [embStep, if_neg h1, if_neg h2, if_neg h3]
        refine ⟨?_, ?_, hbl, hbuf, hbe⟩
        · show Good 0 st.mermaid_blocks.length (st.result ++ line ++ ['\n'])
          rw [List.append_assoc]
          exact good_append_free hg hre (noOcc_line_nl hline)
        · right
          show (st.result ++ line ++ ['\n']).getLast? = some '\n'
          rw [List.getLast?_append]
          rfl

theorem fold_emb_inv : ∀ (ls : List Str) (st : MState),
    (∀ l ∈ ls, ¬ MERMAID_PLACEHOLDER <:+: l) → EmbInv st →
    EmbInv (ls.foldl embStep st) := by
  intro ls
  induction ls with
  | nil => intro st _ inv; exact inv
  | cons l ls ih =>
    intro st hls inv
    exact ih (embStep st l)
      (fun x hx => hls x (List.mem_cons_of_mem l hx))
      (embStep_emb_inv (hls l (List.mem_cons_self l ls)) inv)

/-- For placeholder-free input, the extraction output satisfies the placeholder
    invariant `Good`, and all extracted blocks are placeholder-free. -/
theorem extract_good {content : Str} (hfree : ¬ MERMAID_PLACEHOLDER <:+: content) :
    Good 0 (extract_mermaid_blocks content).2.length (extract_mermaid_blocks content).1 ∧
    ∀ b ∈ (extract_mermaid_blocks content).2, ¬ MERMAID_PLACEHOLDER <:+: b := by
  have hlines : ∀ l ∈ rustLines content, ¬ MERMAID_PLACEHOLDER <:+: l := by
    intro l hl hocc
    exact hfree (hocc.trans (rustLines_sub hl))
  have hinit : EmbInv initState := by
    refine ⟨?_, Or.inl rfl, ?_, noOcc_nil, Or.inl rfl⟩
    · intro l r h
      have := congrArg List.length h
      simp [MERMAID_PLACEHOLDER, initState] at this
      omega
    · intro b hb
      cases hb
  obtain ⟨hg, hre, hbl, _, _⟩ := fold_emb_inv (rustLines content) initState hlines hinit
  exact ⟨hg, hbl⟩

theorem good_of_no_occ {k N : Nat} {s : Str} (h : ¬ MERMAID_PLACEHOLDER <:+: s) :
    Good k N s := by
  intro l r hlr
  exact absurd ⟨l, r, by rw [hlr, List.append_assoc]⟩ h

theorem good_suffix {k N : Nat} {s t : Str} (h : t <:+ s) (hg : Good k N s) :
    Good k N t := by
  obtain ⟨w, hw⟩ := h
  intro l r hlr
  exact hg (w ++ l) r (by rw [← hw, hlr, List.append_assoc])

theorem not_infix_dropLast {pat : Str} (h : pat ≠ []) : ¬ pat <:+: pat.dropLast := by
  intro hi
  have h1 := hi.length_le
  have h2 : pat.dropLast.length = pat.length - 1 := List.length_dropLast pat
  have h3 : 0 < pat.length := List.length_pos.2 h
  omega

theorem rustReplace_head_match {pat : Str} (w rep : Str) (hne : pat ≠ []) :
    rustReplace (pat ++ w) pat rep = rep ++ rustReplace w pat rep := by
  have h := @rustReplace_exact [] pat w rep hne
    (by rw [List.nil_append]; exact not_infix_dropLast hne)
  rwa [List.nil_append, List.nil_append] at h

theorem rustReplace_append_no_touch {pat rep : Str} :
    ∀ (a u : Str), (∀ m, m < a.length → ¬ pat <+: (a.drop m ++ u)) →
    rustReplace (a ++ u) pat rep = a ++ rustReplace u pat rep := by
  intro a
  induction a with
  | nil =>
    intro u _
    rw [List.nil_append, List.nil_append]
  | cons c a' ih =>
    intro u h
    have hnp : ¬ pat <+: (c :: (a' ++ u)) := by
      have h0 := h 0 (by simp)
      rw [List.drop_zero, List.cons_append] at h0
      exact h0
    have h' : ∀ m, m < a'.length → ¬ pat <+: (a'.drop m ++ u) := by
      intro m hm
      have := h (m + 1) (by rw [List.length_cons]; omega)
      rwa [List.drop_succ_cons] at this
    rw [List.cons_append, rustReplace_neg rep hnp, ih u h', List.cons_append]

theorem no_prefix_of_mismatch {pat a u : Str} {j : Nat} (hja : j < a.length)
    (hjp : j < pat.length) (hne : a.get? j ≠ pat.get? j) : ¬ pat <+: (a ++ u) := by
  rintro ⟨t, ht⟩
  have h1 : (pat ++ t).get? j = pat.get? j := List.get?_append hjp
  have h2 : (a ++ u).get? j = a.get? j := List.get?_append hja
  rw [ht, h2] at h1
  exact hne h1

theorem placeholder_drop_mismatch : ∀ m, m < 28 → 1 ≤ m →
    ((MERMAID_PLACEHOLDER.drop m).get? 0 ≠ some 'M' ∧
      0 < (MERMAID_PLACEHOLDER.drop m).length) ∨
    ((MERMAID_PLACEHOLDER.drop m).get? 1 ≠ some 'E' ∧
      1 < (MERMAID_PLACEHOLDER.drop m).length) := by
  decide

theorem placeholder_no_border : ∀ b, b < 28 → 1 ≤ b →
    MERMAID_PLACEHOLDER.take b ≠ MERMAID_PLACEHOLDER.drop (28 - b) := by
  decide

theorem patk_get0 (k : Nat) :
    (MERMAID_PLACEHOLDER ++ natDigits k).get? 0 = some 'M' := by
  rw [List.get?_append (by decide)]
  rfl

theorem patk_get1 (k : Nat) :
    (MERMAID_PLACEHOLDER ++ natDigits k).get? 1 = some 'E' := by
  rw [List.get?_append (by decide)]
  rfl

theorem patk_length_lt (k : Nat) {j : Nat} (hj : j < 28) :
    j < (MERMAID_PLACEHOLDER ++ natDigits k).length := by
  rw [List.length_append]
  have h28 : MERMAID_PLACEHOLDER.length = 28 := by decide
  omega

theorem no_touch_inside_P {T : Str} {k : Nat}
    (h0 : ¬ (MERMAID_PLACEHOLDER ++ natDigits k) <+: (MERMAID_PLACEHOLDER ++ T)) :
    ∀ m, m < MERMAID_PLACEHOLDER.length →
      ¬ (MERMAID_PLACEHOLDER ++ natDigits k) <+: (MERMAID_PLACEHOLDER.drop m ++ T) := by
  intro m hm
  rcases Nat.eq_zero_or_pos m with hm0 | hm1
  · rw [hm0, List.drop_zero]
    exact h0
  · have hm28 : m < 28 := by
      have h28 : MERMAID_PLACEHOLDER.length = 28 := by decide
      omega
    rcases placeholder_drop_mismatch m hm28 hm1 with ⟨hne, hlen⟩ | ⟨hne, hlen⟩
    · refine @no_prefix_of_mismatch (MERMAID_PLACEHOLDER ++ natDigits k)
        (MERMAID_PLACEHOLDER.drop m) T 0 hlen (patk_length_lt k (by omega)) ?_
      rw [patk_get0]
      exact hne
    · refine @no_prefix_of_mismatch (MERMAID_PLACEHOLDER ++ natDigits k)
        (MERMAID_PLACEHOLDER.drop m) T 1 hlen (patk_length_lt k (by omega)) ?_
      rw [patk_get1]
      exact hne

theorem no_touch_inside_digits {T : Str} {k i : Nat} :
    ∀ m, m < (natDigits i).length →
      ¬ (MERMAID_PLACEHOLDER ++ natDigits k) <+: ((natDigits i).drop m ++ T) := by
  intro m hm
  have hget : ∃ c, ((natDigits i).drop m).get? 0 = some c ∧ c.isDigit = true := by
    rcases hd : (natDigits i).drop m with _ | ⟨c, cs⟩
    · exfalso
      have := congrArg List.length hd
      simp only [List.length_drop, List.length_nil] at this
      omega
    · refine ⟨c, rfl, ?_⟩
      have hc : c ∈ natDigits i := by
        have hmem : c ∈ (natDigits i).drop m := by
          rw [hd]
          exact List.mem_cons_self _ _
        exact List.mem_of_mem_drop hmem
      exact natDigits_all_digit i c hc
  obtain ⟨c, hc0, hcd⟩ := hget
  refine @no_prefix_of_mismatch (MERMAID_PLACEHOLDER ++ natDigits k)
    ((natDigits i).drop m) T 0 ?_ (patk_length_lt k (by omega)) ?_
  · rw [List.length_drop]
    omega
  · rw [patk_get0, hc0]
    intro hcon
    cases Option.some.inj hcon
    exact absurd hcd (by decide)

theorem no_touch_before_P {a T : Str} {k : Nat}
    (hlm : ¬ MERMAID_PLACEHOLDER <:+: (a ++ MERMAID_PLACEHOLDER.dropLast)) :
    ∀ m, m < a.length →
      ¬ (MERMAID_PLACEHOLDER ++ natDigits k) <+:
        (a.drop m ++ (MERMAID_PLACEHOLDER ++ T)) := by
  intro m hm hp
  have hPne : MERMAID_PLACEHOLDER ≠ [] := by decide
  have hP : MERMAID_PLACEHOLDER <+: (a.drop m ++ (MERMAID_PLACEHOLDER ++ T)) :=
    (List.prefix_append MERMAID_PLACEHOLDER (natDigits k)).trans hp
  have hPfull : MERMAID_PLACEHOLDER.dropLast ++ ['_'] = MERMAID_PLACEHOLDER := by decide
  have hsplit : a.drop m ++ (MERMAID_PLACEHOLDER ++ T) =
      (a.drop m ++ MERMAID_PLACEHOLDER.dropLast) ++ (['_'] ++ T) := by
    rw [← hPfull]
    simp [List.append_assoc]
  rw [hsplit] at hP
  have hPA : MERMAID_PLACEHOLDER <+: (a.drop m ++ MERMAID_PLACEHOLDER.dropLast) := by
    refine List.prefix_of_prefix_length_le hP (List.prefix_append _ _) ?_
    rw [List.length_append, List.length_drop]
    have h27 : MERMAID_PLACEHOLDER.dropLast.length = 27 := by decide
    have h28 : MERMAID_PLACEHOLDER.length = 28 := by decide
    omega
  have hsuf : (a.drop m ++ MERMAID_PLACEHOLDER.dropLast) <:+
      (a ++ MERMAID_PLACEHOLDER.dropLast) :=
    ⟨a.take m, by rw [← List.append_assoc, List.take_append_drop]⟩
  exact hlm (hPA.isInfix.trans hsuf.isInfix)

theorem good_append_l {k N : Nat} {D X : Str} (hD : ¬ MERMAID_PLACEHOLDER <:+: D)
    (hlast : ∀ x, D.getLast? = some x → x ∉ MERMAID_PLACEHOLDER) (hX : Good k N X) :
    Good k N (D ++ X) := by
  intro l r hlr
  rcases occ_split hlr with ⟨r₂, h1, _⟩ | ⟨l₂, _, h2⟩ | ⟨p₁, p₂, hp, hp1, _, hA2, _⟩
  · exact absurd ⟨l, r₂, by rw [h1]⟩ hD
  · exact hX l₂ r (by rw [h2, List.append_assoc])
  · exfalso
    have hDne : D ≠ [] := by
      intro hnil
      rw [hnil] at hA2
      exact hp1 (List.eq_nil_of_length_eq_zero (by
        have := congrArg List.length hA2
        simp at this
        omega))
    have hlastD : D.getLast? = some (p₁.getLast hp1) := by
      rw [hA2, List.getLast?_append, List.getLast?_eq_getLast _ hp1]
      rfl
    refine hlast _ hlastD ?_
    rw [hp]
    exact List.mem_append.2 (Or.inl (List.getLast_mem hp1))

theorem good_append_r {k N : Nat} {A Y : Str} (hA : ¬ MERMAID_PLACEHOLDER <:+: A)
    (hhead : ∀ x, Y.head? = some x → x ∉ MERMAID_PLACEHOLDER) (hY : Good k N Y) :
    Good k N (A ++ Y) := by
  intro l r hlr
  rcases occ_split hlr with ⟨r₂, h1, _⟩ | ⟨l₂, _, h2⟩ | ⟨p₁, p₂, hp, _, hp2, _, hB2⟩
  · exact absurd ⟨l, r₂, by rw [h1]⟩ hA
  · exact hY l₂ r (by rw [h2, List.append_assoc])
  · exfalso
    have hheadY : Y.head? = some (p₂.head hp2) := by
      rw [hB2]
      rcases p₂ with _ | ⟨x, xs⟩
      · exact absurd rfl hp2
      · rfl
    refine hhead _ hheadY ?_
    rw [hp]
    exact List.mem_append.2 (Or.inr (List.head_mem hp2))

/-- Every string containing the placeholder prefix splits at its leftmost
    occurrence. -/
theorem leftmost_P_decomp {s : Str} (h : MERMAID_PLACEHOLDER <:+: s) :
    ∃ a u, s = a ++ (MERMAID_PLACEHOLDER ++ u) ∧
      ¬ MERMAID_PLACEHOLDER <:+: (a ++ MERMAID_PLACEHOLDER.dropLast) := by
  induction s with
  | nil =>
    rw [List.infix_nil] at h
    exact absurd h (by decide)
  | cons c rest ih =>
    by_cases hpref : MERMAID_PLACEHOLDER <+: (c :: rest)
    · refine ⟨[], (c :: rest).drop 28, ?_, ?_⟩
      · rw [List.nil_append]
        obtain ⟨t, ht⟩ := hpref
        have h28 : MERMAID_PLACEHOLDER.length = 28 := by decide
        rw [← ht, ← h28, List.drop_left]
      · rw [List.nil_append]
        exact not_infix_dropLast (by decide)
    · have hrest : MERMAID_PLACEHOLDER <:+: rest := by
        rcases h with ⟨l, r, hlr⟩
        rcases l with _ | ⟨x, l'⟩
        · refine absurd ⟨r, ?_⟩ hpref
          rw [← hlr]
          simp
        · refine ⟨l', r, ?_⟩
          rw [List.cons_append, List.cons_append] at hlr
          exact (List.cons.inj hlr).2
      obtain ⟨a, u, hau, hna⟩ := ih hrest
      refine ⟨c :: a, u, by rw [List.cons_append, hau], ?_⟩
      rw [List.cons_append]
      intro hocc
      rcases infix_parts hocc with ⟨l, r, hlr⟩
      rcases l with _ | ⟨x, l'⟩
      · rw [List.nil_append] at hlr
        apply hpref
        have hPfull : MERMAID_PLACEHOLDER.dropLast ++ ['_'] = MERMAID_PLACEHOLDER := by
          decide
        have hpref2 : (c :: (a ++ MERMAID_PLACEHOLDER.dropLast)) <+: (c :: rest) := by
          rw [hau, ← hPfull]
          refine ⟨['_'] ++ u, ?_⟩
          simp [List.append_assoc]
        exact List.IsPrefix.trans ⟨r, hlr.symm⟩ hpref2
      · rw [List.cons_append] at hlr
        have hinj := (List.cons.inj hlr).2
        refine hna ⟨l', r, ?_⟩
        rw [List.append_assoc]
        exact hinj.symm

/-- A surviving placeholder block keeps the `Good` invariant through step `k`
    when its index was not matched by the step-`k` pattern. -/
theorem good_block {k N i : Nat} {a X' : Str} (hiN : i < N)
    (ha : ¬ MERMAID_PLACEHOLDER <:+: a)
    (hX : Good (k + 1) N X') (hXf : Follower X')
    (hk : ¬ natDigits k <+: natDigits i)
    (hprev : ∀ j, j < k → ¬ natDigits j <+: natDigits i) :
    Good (k + 1) N (a ++ (MERMAID_PLACEHOLDER ++ (natDigits i ++ X'))) := by
  intro l r hlr
  rcases occ_split hlr with ⟨r₂, h1, _⟩ | ⟨l₂, _, h2⟩ | ⟨p₁, p₂, hp, hp1, hp2, hA2, hB2⟩
  · exact absurd ⟨l, r₂, by rw [h1]⟩ ha
  · have h2' : MERMAID_PLACEHOLDER ++ (natDigits i ++ X') =
        l₂ ++ (MERMAID_PLACEHOLDER ++ r) := by
      rw [List.append_assoc] at h2
      exact h2
    rcases occ_split h2' with ⟨r₃, h3, h4⟩ | ⟨l₃, _, h5⟩ | ⟨q₁, q₂, hq, hq1, hq2, hQ1, hQ2⟩
    · have hlen := congrArg List.length h3
      simp only [List.length_append] at hlen
      have hr3 : r₃ = [] := List.eq_nil_of_length_eq_zero (by omega)
      refine ⟨i, hiN, ⟨X', ?_, hXf⟩, ?_⟩
      · rw [h4, hr3, List.nil_append]
      · intro j hj
        rcases Nat.lt_succ_iff_lt_or_eq.1 hj with hj | hj
        · exact hprev j hj
        · rw [hj]
          exact hk
    · have h5' : natDigits i ++ X' = l₃ ++ (MERMAID_PLACEHOLDER ++ r) := by
        rw [List.append_assoc] at h5
        exact h5
      rcases occ_split h5' with ⟨r₄, h6, _⟩ | ⟨l₄, _, h7⟩ | ⟨w₁, w₂, hw, hw1, hw2, hW1, hW2⟩
      · exfalso
        have hM : 'M' ∈ natDigits i := by
          rw [h6]
          exact List.mem_append.2 (Or.inl (List.mem_append.2 (Or.inr (by decide))))
        have := natDigits_all_digit i 'M' hM
        exact absurd this (by decide)
      · exact hX l₄ r (by rw [h7, List.append_assoc])
      · exfalso
        have hw1h : w₁.head hw1 ∈ natDigits i := by
          rw [hW1]
          exact List.mem_append.2 (Or.inr (List.head_mem hw1))
        have hd := natDigits_all_digit i _ hw1h
        have hmem : w₁.head hw1 ∈ MERMAID_PLACEHOLDER := by
          rw [hw]
          exact List.mem_append.2 (Or.inl (List.head_mem hw1))
        have hfalse := placeholder_no_digit _ hmem
        rw [hd] at hfalse
        simp at hfalse
    · exfalso
      obtain ⟨d, hd0, hdd⟩ := natDigits_head_digit i
      have hdig : (natDigits i ++ X').head? = some d := by
        rcases hni : natDigits i with _ | ⟨x, xs⟩
        · exact absurd hni (natDigits_ne_nil i)
        · rw [hni] at hd0
          rw [List.cons_append, List.head?_cons]
          rw [List.head?_cons] at hd0
          exact hd0
      rcases hq2' : q₂ with _ | ⟨y, ys⟩
      · exact hq2 hq2'
      · rw [hq2', List.cons_append] at hQ2
        rw [hQ2, List.head?_cons] at hdig
        have hy : y = d := Option.some.inj hdig
        have hmem : y ∈ MERMAID_PLACEHOLDER := by
          rw [hq, hq2']
          exact List.mem_append.2 (Or.inr (List.mem_cons_self _ _))
        have hfalse := placeholder_no_digit _ hmem
        rw [hy, hdd] at hfalse
        simp at hfalse
  · exfalso
    have hp2P : p₂ <+: MERMAID_PLACEHOLDER := by
      have hpre : p₂ <+: (MERMAID_PLACEHOLDER ++ (natDigits i ++ X')) := ⟨r, hB2.symm⟩
      refine List.prefix_of_prefix_length_le hpre (List.prefix_append _ _) ?_
      have hlp := congrArg List.length hp
      simp only [List.length_append] at hlp
      have hl1 : 0 < p₁.length := List.length_pos.2 hp1
      omega
    have htake : p₂ = MERMAID_PLACEHOLDER.take p₂.length :=
      List.prefix_iff_eq_take.1 hp2P
    have hdrop : p₂ = MERMAID_PLACEHOLDER.drop p₁.length := by
      rw [hp, List.drop_left]
    have hlp := congrArg List.length hp
    simp only [List.length_append] at hlp
    have h28 : MERMAID_PLACEHOLDER.length = 28 := by decide
    have hb1 : 1 ≤ p₂.length := List.length_pos.2 hp2
    have hb2 : p₂.length < 28 := by
      have hl1 : 0 < p₁.length := List.length_pos.2 hp1
      omega
    have hdl : p₁.length = 28 - p₂.length := by omega
    refine placeholder_no_border p₂.length hb2 hb1 ?_
    rw [← htake, ← hdl, ← hdrop]

theorem head?_append_some {α : Type} {l l' : List α} {x : α}
    (h : l.head? = some x) : (l ++ l').head? = some x := by
  cases l with
  | nil => cases h
  | cons c t => exact h

/-- One substitution step of the placeholder loop advances the `Good`
    invariant from `k` to `k + 1`. -/
theorem replace_good {N k : Nat} {b : Str} (hkN : k < N)
    (hb : ¬ MERMAID_PLACEHOLDER <:+: b) :
    ∀ n s, s.length ≤ n → Good k N s →
      Good (k + 1) N
        (rustReplace s (MERMAID_PLACEHOLDER ++ natDigits k) (mermaidDiv b)) := by
  intro n
  induction n with
  | zero =>
    intro s hs _
    have hnil : s = [] := List.eq_nil_of_length_eq_zero (by omega)
    rw [hnil, rustReplace_nil]
    exact good_of_no_occ noOcc_nil
  | succ n ih =>
    intro s hs hg
    by_cases hP : MERMAID_PLACEHOLDER <:+: s
    · obtain ⟨a, u, hau, hlm⟩ := leftmost_P_decomp hP
      obtain ⟨i, hiN, ⟨r', hr', hf⟩, hj⟩ := hg a u hau
      have ha : ¬ MERMAID_PLACEHOLDER <:+: a := by
        intro hocc
        exact hlm (hocc.trans (List.prefix_append a MERMAID_PLACEHOLDER.dropLast).isInfix)
      have h28 : MERMAID_PLACEHOLDER.length = 28 := by decide
      have hlen : s.length = a.length + MERMAID_PLACEHOLDER.length + u.length := by
        rw [hau, List.length_append, List.length_append]
        omega
      have hstep1 : rustReplace s (MERMAID_PLACEHOLDER ++ natDigits k) (mermaidDiv b) =
          a ++ rustReplace (MERMAID_PLACEHOLDER ++ u)
            (MERMAID_PLACEHOLDER ++ natDigits k) (mermaidDiv b) := by
        rw [hau]
        exact rustReplace_append_no_touch a (MERMAID_PLACEHOLDER ++ u)
          (fun m hm => no_touch_before_P hlm m hm)
      by_cases hdk : natDigits k <+: natDigits i
      · obtain ⟨e, he⟩ := hdk
        have hu : u = natDigits k ++ (e ++ r') := by
          rw [hr', ← he, List.append_assoc]
        have hpne : MERMAID_PLACEHOLDER ++ natDigits k ≠ [] := by
          intro hc
          have hlc := congrArg List.length hc
          rw [List.length_append, h28] at hlc
          simp at hlc
        have hstep2 : rustReplace (MERMAID_PLACEHOLDER ++ u)
            (MERMAID_PLACEHOLDER ++ natDigits k) (mermaidDiv b) =
            mermaidDiv b ++ rustReplace (e ++ r')
              (MERMAID_PLACEHOLDER ++ natDigits k) (mermaidDiv b) := by
          rw [hu, ← List.append_assoc]
          exact rustReplace_head_match (e ++ r') (mermaidDiv b) hpne
        have hsufer : (e ++ r') <:+ s := by
          rw [hau, hu]
          refine ⟨a ++ (MERMAID_PLACEHOLDER ++ natDigits k), ?_⟩
          simp [List.append_assoc]
        have hgood_er : Good k N (e ++ r') := good_suffix hsufer hg
        have hlener : (e ++ r').length ≤ n := by
          have h1 := congrArg List.length hu
          rw [List.length_append] at h1
          have h2 : 0 < (natDigits k).length := List.length_pos.2 (natDigits_ne_nil k)
          omega
        have hX := ih (e ++ r') hlener hgood_er
        rw [hstep1, hstep2]
        have hY : Good (k + 1) N (mermaidDiv b ++ rustReplace (e ++ r')
            (MERMAID_PLACEHOLDER ++ natDigits k) (mermaidDiv b)) := by
          refine good_append_l (noOcc_mermaidDiv hb) ?_ hX
          intro x hx
          rw [mermaidDiv_last b] at hx
          cases Option.some.inj hx
          decide
        refine good_append_r ha ?_ hY
        intro x hx
        rw [head?_append_some (mermaidDiv_head b)] at hx
        cases Option.some.inj hx
        decide
      · have h0 : ¬ (MERMAID_PLACEHOLDER ++ natDigits k) <+: (MERMAID_PLACEHOLDER ++ u) := by
          intro hpp
          have hdku : natDigits k <+: u :=
            (List.prefix_append_right_inj MERMAID_PLACEHOLDER).1 hpp
          rw [hr'] at hdku
          rcases prefix_append_cases hdku with hcase | ⟨hipk, hdrop⟩
          · exact hdk hcase
          · rcases hdc : (natDigits k).drop (natDigits i).length with _ | ⟨c, cs⟩
            · have hle : (natDigits k).length ≤ (natDigits i).length := by
                have := congrArg List.length hdc
                simp only [List.length_drop, List.length_nil] at this
                omega
              have heq : natDigits i = natDigits k :=
                List.IsPrefix.eq_of_length hipk (by
                  have := hipk.length_le
                  omega)
              exact hdk (by rw [heq])
            · rw [hdc] at hdrop
              have hchd : r'.head? = some c := by
                rcases hdrop with ⟨t, ht⟩
                rw [← ht]
                rfl
              have hcm : c ∈ natDigits k :=
                List.mem_of_mem_drop (show c ∈ (natDigits k).drop (natDigits i).length by
                  rw [hdc]
                  exact List.mem_cons_self _ _)
              have hcd : c.isDigit = true := natDigits_all_digit k c hcm
              exact absurd (hf c hchd).1 (by rw [hcd]; simp)
        have hstep2 : rustReplace (MERMAID_PLACEHOLDER ++ u)
            (MERMAID_PLACEHOLDER ++ natDigits k) (mermaidDiv b) =
            MERMAID_PLACEHOLDER ++ rustReplace u
              (MERMAID_PLACEHOLDER ++ natDigits k) (mermaidDiv b) :=
          rustReplace_append_no_touch MERMAID_PLACEHOLDER u (no_touch_inside_P h0)
        have hstep3 : rustReplace u (MERMAID_PLACEHOLDER ++ natDigits k) (mermaidDiv b) =
            natDigits i ++ rustReplace r'
              (MERMAID_PLACEHOLDER ++ natDigits k) (mermaidDiv b) := by
          rw [hr']
          exact rustReplace_append_no_touch (natDigits i) r'
            (fun m hm => no_touch_inside_digits m hm)
        have hsufr : r' <:+ s := by
          rw [hau, hr']
          refine ⟨a ++ (MERMAID_PLACEHOLDER ++ natDigits i), ?_⟩
          simp [List.append_assoc]
        have hgr : Good k N r' := good_suffix hsufr hg
        have hlenr : r'.length ≤ n := by
          have h1 := congrArg List.length hr'
          rw [List.length_append] at h1
          have h2 : 0 < (natDigits i).length := List.length_pos.2 (natDigits_ne_nil i)
          omega
        have hX := ih r' hlenr hgr
        have hXf : Follower (rustReplace r'
            (MERMAID_PLACEHOLDER ++ natDigits k) (mermaidDiv b)) := by
          rcases hr'' : r' with _ | ⟨c, cs⟩
          · rw [rustReplace_nil]
            intro x hx
            simp at hx
          · have hnm : ¬ (MERMAID_PLACEHOLDER ++ natDigits k) <+: (c :: cs) := by
              intro hpp
              have hch : c = 'M' := by
                rcases hpp with ⟨t, ht⟩
                have hhd := congrArg List.head? ht
                rw [head?_append_some (head?_append_some placeholder_head)] at hhd
                exact (Option.some.inj hhd).symm
              have hcP : c ∈ MERMAID_PLACEHOLDER := by
                rw [hch]
                decide
              exact (hf c (by rw [hr'']; rfl)).2 hcP
            rw [rustReplace_neg (mermaidDiv b) hnm]
            intro x hx
            rw [List.head?_cons] at hx
            cases Option.some.inj hx
            exact hf c (by rw [hr'']; rfl)
        rw [hstep1, hstep2, hstep3]
        exact good_block hiN ha hX hXf hdk (fun j hjk => hj j hjk)
    · have hnp : ¬ (MERMAID_PLACEHOLDER ++ natDigits k) <:+: s := by
        intro hocc
        exact hP ((List.prefix_append MERMAID_PLACEHOLDER (natDigits k)).isInfix.trans hocc)
      rw [rustReplace_of_no_occ (mermaidDiv b) hnp]
      exact good_of_no_occ hP

theorem enum_fold_good {N : Nat} :
    ∀ (bs : List Str) (k : Nat) (h : Str), k + bs.length = N →
      (∀ b ∈ bs, ¬ MERMAID_PLACEHOLDER <:+: b) → Good k N h →
      Good N N ((List.enumFrom k bs).foldl
        (fun h p => rustReplace h (MERMAID_PLACEHOLDER ++ natDigits p.1)
          (mermaidDiv p.2)) h) := by
  intro bs
  induction bs with
  | nil =>
    intro k h hk _ hg
    rw [List.length_nil] at hk
    rw [show List.enumFrom k ([] : List Str) = [] from rfl, List.foldl_nil]
    rw [show k = N by omega] at hg
    exact hg
  | cons b bs ihb =>
    intro k h hk hbs hg
    rw [List.length_cons] at hk
    rw [show List.enumFrom k (b :: bs) = (k, b) :: List.enumFrom (k + 1) bs from rfl,
      List.foldl_cons]
    refine ihb (k + 1) _ (by omega)
      (fun x hx => hbs x (List.mem_cons_of_mem b hx)) ?_
    exact replace_good (by omega) (hbs b (List.mem_cons_self b bs)) h.length h
      (le_refl _) hg

/-- After the full substitution loop the placeholder prefix is gone, provided
    the starting string satisfies the invariant and the blocks are clean. -/
theorem substLoop_no_placeholder {blocks : List Str} {h : Str}
    (hbs : ∀ b ∈ blocks, ¬ MERMAID_PLACEHOLDER <:+: b)
    (hg : Good 0 blocks.length h) :
    ¬ MERMAID_PLACEHOLDER <:+: substLoop blocks h := by
  have heq : substLoop blocks h = (List.enumFrom 0 blocks).foldl
      (fun h p => rustReplace h (MERMAID_PLACEHOLDER ++ natDigits p.1)
        (mermaidDiv p.2)) h := rfl
  rw [heq]
  exact good_final (enum_fold_good blocks 0 h (by omega) hbs hg)

theorem extractTitleGo_cases : ∀ ls : List Str,
    extractTitleGo ls = "Document".toList ∨
      ∃ l ∈ ls, extractTitleGo ls = rustTrim ((rustTrim l).drop 2) := by
  intro ls
  induction ls with
  | nil => exact Or.inl rfl
  | cons l ls ih =>
    by_cases hpre : ("# ".toList).isPrefixOf (rustTrim l)
    · refine Or.inr ⟨l, List.mem_cons_self l ls, ?_⟩
      rw [extractTitleGo, if_pos hpre]
    · rw [extractTitleGo, if_neg hpre]
      rcases ih with h | ⟨l', hl', he⟩
      · exact Or.inl h
      · exact Or.inr ⟨l', List.mem_cons_of_mem l hl', he⟩

theorem extract_title_infix (content : Str) :
    extract_title content <:+: content ∨
      extract_title content = "Document".toList := by
  rcases extractTitleGo_cases (rustLines content) with h | ⟨l, hl, he⟩
  · exact Or.inr h
  · left
    rw [extract_title] at *
    rw [he]
    have h1 : rustTrim ((rustTrim l).drop 2) <:+: (rustTrim l).drop 2 :=
      rustTrim_sub _
    have h2 : (rustTrim l).drop 2 <:+: rustTrim l := (List.drop_suffix _ _).isInfix
    have h3 : rustTrim l <:+: l := rustTrim_sub l
    exact ((h1.trans h2).trans h3).trans (rustLines_sub hl)

theorem noOcc_tmplHead : ¬ MERMAID_PLACEHOLDER <:+: tmplHead := by decide

theorem noOcc_tmplTail : ¬ MERMAID_PLACEHOLDER <:+: tmplTail := by decide

theorem noOcc_document : ¬ MERMAID_PLACEHOLDER <:+: ("Document".toList) := by decide

theorem noOcc_title {content : Str} (hfree : ¬ MERMAID_PLACEHOLDER <:+: content) :
    ¬ MERMAID_PLACEHOLDER <:+: extract_title content := by
  rcases extract_title_infix content with h | h
  · intro hocc
    exact hfree (hocc.trans h)
  · rw [h]
    exact noOcc_document

theorem tmplTail_head : tmplTail.head? = some '\n' := rfl

/-- C1 (amended): for every markdown input that contains no occurrence of the
    placeholder prefix and whose extracted title contains no occurrence of the
    `\x7b\x7bCONTENT\x7d\x7d` marker, and for every parser/generator pair that
    round-trips the processed markdown unchanged, composing the final HTML
    document succeeds and the output contains zero occurrences of the
    placeholder prefix `MERMAID_DIAGRAM_PLACEHOLDER_`. -/
theorem placeholder_substitution (Doc : Type) (parse : Str → Except Str Doc)
    (generate : Doc → Except Str Str) (content : Str) (doc : Doc)
    (hfree : ¬ MERMAID_PLACEHOLDER <:+: content)
    (htitle : ¬ contentMarker <:+: extract_title content)
    (hp : parse (extract_mermaid_blocks content).1 = .ok doc)
    (hg : generate doc = .ok (extract_mermaid_blocks content).1) :
    ∃ out, convert_markdown Doc parse generate content .Html = .ok out ∧
      ¬ MERMAID_PLACEHOLDER <:+: out := by
  refine ⟨_, convert_markdown_html_composed Doc parse generate content doc _ hp hg htitle,
    ?_⟩
  obtain ⟨hgood, hbl⟩ := extract_good hfree
  have hHtml : ¬ MERMAID_PLACEHOLDER <:+:
      substLoop (extract_mermaid_blocks content).2 (extract_mermaid_blocks content).1 :=
    substLoop_no_placeholder hbl hgood
  have h1 : ¬ MERMAID_PLACEHOLDER <:+:
      (substLoop (extract_mermaid_blocks content).2 (extract_mermaid_blocks content).1
        ++ tmplTail) := by
    refine noOcc_append_right hHtml noOcc_tmplTail ?_
    intro x hx
    rw [tmplTail_head] at hx
    cases Option.some.inj hx
    decide
  have h2 : ¬ MERMAID_PLACEHOLDER <:+: (tmplMid ++
      (substLoop (extract_mermaid_blocks content).2 (extract_mermaid_blocks content).1
        ++ tmplTail)) := by
    refine noOcc_append_left noOcc_tmplMid_P h1 ?_
    intro x hx
    rw [tmplMid_last] at hx
    cases Option.some.inj hx
    decide
  have h3 : ¬ MERMAID_PLACEHOLDER <:+: (extract_title content ++ (tmplMid ++
      (substLoop (extract_mermaid_blocks content).2 (extract_mermaid_blocks content).1
        ++ tmplTail))) := by
    refine noOcc_append_right (noOcc_title hfree) h2 ?_
    intro x hx
    rw [head?_append_some tmplMid_head] at hx
    cases Option.some.inj hx
    decide
  refine noOcc_append_left noOcc_tmplHead h3 ?_
  intro x hx
  rw [tmplHead_last] at hx
  cases Option.some.inj hx
  decide

/-- C1 counterexample: the input consisting of the single line
    `MERMAID_DIAGRAM_PLACEHOLDER_` (no mermaid fences at all) is copied
    verbatim into the processed markdown, survives the (empty) substitution
    loop, and so the composed output does contain the placeholder prefix —
    refuting the claim as stated for all inputs. -/
theorem placeholder_substitution_cex :
    ∃ out, convert_markdown Str (fun s => .ok s) (fun s => .ok s)
        ("MERMAID_DIAGRAM_PLACEHOLDER_".toList) .Html = .ok out ∧
      MERMAID_PLACEHOLDER <:+: out := by
  have hT : ¬ contentMarker <:+:
      extract_title ("MERMAID_DIAGRAM_PLACEHOLDER_".toList) := by decide
  have hcomp := convert_markdown_html_composed Str (fun s => .ok s) (fun s => .ok s)
    ("MERMAID_DIAGRAM_PLACEHOLDER_".toList)
    ((extract_mermaid_blocks ("MERMAID_DIAGRAM_PLACEHOLDER_".toList)).1)
    ((extract_mermaid_blocks ("MERMAID_DIAGRAM_PLACEHOLDER_".toList)).1) rfl rfl hT
  refine ⟨_, hcomp, ?_⟩
  have hsub : substLoop (extract_mermaid_blocks ("MERMAID_DIAGRAM_PLACEHOLDER_".toList)).2
      (extract_mermaid_blocks ("MERMAID_DIAGRAM_PLACEHOLDER_".toList)).1 =
      "MERMAID_DIAGRAM_PLACEHOLDER_\n".toList := by decide
  rw [hsub]
  have hocc : MERMAID_PLACEHOLDER <:+: ("MERMAID_DIAGRAM_PLACEHOLDER_\n".toList) := by
    decide
  have hx1 : MERMAID_PLACEHOLDER <:+:
      ("MERMAID_DIAGRAM_PLACEHOLDER_\n".toList ++ tmplTail) :=
    hocc.trans (List.prefix_append _ _).isInfix
  have hx2 := hx1.trans (List.suffix_append tmplMid
    ("MERMAID_DIAGRAM_PLACEHOLDER_\n".toList ++ tmplTail)).isInfix
  have hx3 := hx2.trans (List.suffix_append
    (extract_title ("MERMAID_DIAGRAM_PLACEHOLDER_".toList))
    (tmplMid ++ ("MERMAID_DIAGRAM_PLACEHOLDER_\n".toList ++ tmplTail))).isInfix
  exact hx3.trans (List.suffix_append tmplHead
    (extract_title ("MERMAID_DIAGRAM_PLACEHOLDER_".toList) ++
      (tmplMid ++ ("MERMAID_DIAGRAM_PLACEHOLDER_\n".toList ++ tmplTail)))).isInfix

/-- C1 witness: the amended theorem applied to the concrete document
    `# T\n` + a single well-formed mermaid fence. -/
theorem placeholder_substitution_witness :
    ∃ out, convert_markdown Str (fun s => .ok s) (fun s => .ok s)
        ("# T\n```mermaid\ngraph\n```".toList) .Html = .ok out ∧
      ¬ MERMAID_PLACEHOLDER <:+: out :=
  placeholder_substitution Str (fun s => .ok s) (fun s => .ok s)
    ("# T\n```mermaid\ngraph\n```".toList)
    ((extract_mermaid_blocks ("# T\n```mermaid\ngraph\n```".toList)).1)
    (by decide) (by decide) rfl rfl
